import Mathlib

set_option maxRecDepth 4000

/-!
Verification of the GBA BIOS high-level-emulation layer (`src/gba/gba-bios.c`).

The source is shallowly embedded: guest registers and addresses are 32-bit
patterns modelled as `Nat` reduced mod 2^32, the memory bus is a byte map
together with a trace of the stores performed, and every decoder loop is a
fuel-indexed executable function returning `none` when the fuel runs out
(the C loops are bounded only by the data, and the Huffman outer loop can
genuinely diverge on a malformed tree).
-/

/-- The modulus 2^32 of the guest's 32-bit register and address arithmetic. -/
def U32 : Nat := 4294967296

/-- Reduce a value to 32 bits (uint32_t arithmetic). -/
def u32 (n : Nat) : Nat := n % U32

/-- Wrapping uint32_t subtraction `a - b`. -/
def sub32 (a b : Nat) : Nat := (a + (U32 - b % U32)) % U32

/-- Value of a 32-bit register pattern read as a signed int32_t. -/
def toS32 (n : Nat) : Int :=
  if n % U32 < 2147483648 then (n % U32 : Int) else (n % U32 : Int) - (U32 : Int)

/-- Bit pattern written when a signed value is stored into a 32-bit register. -/
def ofS32 (i : Int) : Nat := (i % (U32 : Int)).toNat

/-- The emulated memory bus: `mem a` is the byte at address `a` (addresses are
taken mod 2^32 and values mod 256 on access), and `stores` is the trace of
stores performed, newest first, as (address, width in bytes, value). -/
structure Bus where
  mem : Nat → Nat
  stores : List (Nat × Nat × Nat)

/-- The bus accessor cpu->memory.loadU8. -/
def Bus.loadU8 (b : Bus) (a : Nat) : Nat := b.mem (u32 a) % 256

/-- The bus accessor cpu->memory.loadU16, little-endian byte composition. -/
def Bus.loadU16 (b : Bus) (a : Nat) : Nat := b.loadU8 a + 256 * b.loadU8 (a + 1)

/-- The bus accessor cpu->memory.load32, little-endian byte composition. -/
def Bus.load32 (b : Bus) (a : Nat) : Nat :=
  b.loadU8 a + 256 * b.loadU8 (a + 1) + 65536 * b.loadU8 (a + 2) +
    16777216 * b.loadU8 (a + 3)

/-- The bus accessor cpu->memory.store8. -/
def Bus.store8 (b : Bus) (a v : Nat) : Bus :=
  { mem := fun x => if x = u32 a then v % 256 else b.mem x,
    stores := (u32 a, 1, v % 256) :: b.stores }

/-- The bus accessor cpu->memory.store16, little-endian. -/
def Bus.store16 (b : Bus) (a v : Nat) : Bus :=
  { mem := fun x =>
      if x = u32 a then v % 256
      else if x = u32 (a + 1) then v / 256 % 256
      else b.mem x,
    stores := (u32 a, 2, v % 65536) :: b.stores }

/-- The bus accessor cpu->memory.store32, little-endian. -/
def Bus.store32 (b : Bus) (a v : Nat) : Bus :=
  { mem := fun x =>
      if x = u32 a then v % 256
      else if x = u32 (a + 1) then v / 256 % 256
      else if x = u32 (a + 2) then v / 65536 % 256
      else if x = u32 (a + 3) then v / 16777216 % 256
      else b.mem x,
    stores := (u32 a, 4, v % U32) :: b.stores }

/-- Total number of destination bytes covered by a store trace. -/
def sumBytes : List (Nat × Nat × Nat) → Nat
  | [] => 0
  | e :: l => e.2.1 + sumBytes l

/-- Guest-visible machine state plus collaborator-effect counters: the guest
register file (32-bit patterns), the memory bus, the GBALog message list
(newest first), and counters of ARMRaiseSWI and GBAHalt calls. -/
structure Machine where
  gprs : Nat → Nat
  bus : Bus
  msgs : List String
  raises : Nat
  halts : Nat

/-- Register write cpu->gprs[r] = v (the stored pattern is reduced to 32 bits). -/
def Machine.setGpr (m : Machine) (r v : Nat) : Machine :=
  { m with gprs := fun i => if i = r then u32 v else m.gprs i }

/-- The GBALog collaborator: record a diagnostic message. -/
def Machine.log (m : Machine) (s : String) : Machine := { m with msgs := s :: m.msgs }

/-- Format string of the dispatcher's entry log. -/
def msgSwiEntry : String := "SWI: %02X r0: %08X r1: %08X r2: %08X r3: %08X"

/-- GBALog message of _RegisterRamReset. -/
def msgRamResetStub : String := "RegisterRamReset unimplemented"

/-- GBALog message of the _Div denominator-zero branch. -/
def msgDivZero : String := "Attempting to divide %i by zero!"

/-- GBALog message of the unaligned-Huffman abort. -/
def msgUnalignedHuffman : String := "Unimplemented unaligned Huffman"

/-- GBALog message: bad LZ77 source. -/
def msgBadLzSource : String := "Bad LZ77 source"

/-- GBALog message: bad LZ77 destination. -/
def msgBadLzDest : String := "Bad LZ77 destination"

/-- GBALog message: bad Huffman source. -/
def msgBadHuffSource : String := "Bad Huffman source"

/-- GBALog message: bad Huffman destination. -/
def msgBadHuffDest : String := "Bad Huffman destination"

/-- GBALog message: bad RL source. -/
def msgBadRlSource : String := "Bad RL source"

/-- GBALog message: bad RL destination. -/
def msgBadRlDest : String := "Bad RL destination"

/-- GBALog message: bad UnFilter source. -/
def msgBadUfSource : String := "Bad UnFilter source"

/-- GBALog message: bad UnFilter destination. -/
def msgBadUfDest : String := "Bad UnFilter destination"

/-- GBALog message of the default (stub) dispatcher case. -/
def msgStub : String := "Stub software interrupt: %02X"

/-- The handler _Div(gba, num, denom). `div()` computes the C truncated quotient and the
remainder with the dividend's sign, here `Int.tdiv` / `Int.tmod`; results are
stored back into gprs 0, 1 and 3 as 32-bit patterns. `div(INT32_MIN, -1)`
overflows `div()` (undefined behavior in C) and is modelled mathematically. -/
def _Div (m : Machine) (num denom : Int) : Machine :=
  if denom ≠ 0 then
    ((m.setGpr 0 (ofS32 (num.tdiv denom))).setGpr 1 (ofS32 (num.tmod denom))).setGpr 3
      (ofS32 |num.tdiv denom|)
  else
    (((m.log msgDivZero).setGpr 0 (ofS32 (if num < 0 then -1 else 1))).setGpr 1
      (ofS32 num)).setGpr 3 1

/-- The loop of GBAChecksum: `for (i = 0; i < size; i += 4) sum += memory[i >> 2];`
with a uint32_t sum. The fuel bounds the iteration count; `size` iterations
always suffice. -/
def checksumLoop (memory : Nat → Nat) (size : Nat) : Nat → Nat → Nat → Nat
  | 0, _, sum => sum
  | fuel + 1, i, sum =>
    if i < size then checksumLoop memory size fuel (i + 4) (u32 (sum + u32 (memory (i >>> 2))))
    else sum

/-- The routine GBAChecksum(memory, size): 32-bit word-sum of a memory span. `memory` maps
a word index to the uint32_t word stored there. -/
def GBAChecksum (memory : Nat → Nat) (size : Nat) : Nat := checksumLoop memory size (size + 1) 0 0

/-- Shared width-handling block of _unLz77 and _unRl (the C text is repeated
verbatim in both): width 2 buffers a byte destined for an even address in the
scratch halfword and commits `store16(dest ^ 1, halfword)` on an odd address;
width 1 is a plain store8. Returns the updated (halfword, bus). -/
def putByte (width dest byte halfword : Nat) (bus : Bus) : Nat × Bus :=
  if width = 2 then
    if dest &&& 1 ≠ 0 then
      let hw := halfword ||| (byte <<< 8)
      (hw, bus.store16 (dest ^^^ 1) hw)
    else (byte, bus)
  else (halfword, bus.store8 dest byte)

/-- Local state of _unLz77's decode loop. `remaining` is a C int that is only
ever decremented under a nonzero guard, so it stays nonnegative and Nat
subtraction coincides with the C arithmetic. The scratch `halfword` is an
uninitialized int in C (first read only when the first output byte lands on
an odd destination); it is modelled as starting at 0, as the spec directs. -/
structure Lz77State where
  source : Nat
  dest : Nat
  remaining : Nat
  blockheader : Nat
  blocksRemaining : Nat
  halfword : Nat
  bus : Bus

/-- Inner copy loop of a compressed LZ77 chunk:
`while (bytes-- && remaining) { --remaining; byte = loadU8(disp); ++disp; <store>; ++dest; }`. -/
def lz77Copy (width : Nat) : Nat → Nat → Lz77State → Lz77State
  | 0, _, s => s
  | bytes + 1, disp, s =>
    if s.remaining = 0 then s
    else
      let byte := s.bus.loadU8 disp
      let hb := putByte width s.dest byte s.halfword s.bus
      lz77Copy width bytes (u32 (disp + 1))
        { s with remaining := s.remaining - 1, halfword := hb.1, bus := hb.2,
                 dest := u32 (s.dest + 1) }

/-- One iteration of _unLz77's outer `while (remaining > 0)` loop (the guard is
tested by `lz77Loop`). -/
def lz77Body (width : Nat) (s : Lz77State) : Lz77State :=
  if s.blocksRemaining ≠ 0 then
    if s.blockheader &&& 0x80 ≠ 0 then
      let block := s.bus.loadU8 s.source ||| (s.bus.loadU8 (u32 (s.source + 1)) <<< 8)
      let disp := sub32 (sub32 s.dest (((block &&& 0x000F) <<< 8) ||| ((block &&& 0xFF00) >>> 8))) 1
      let bytes := ((block &&& 0x00F0) >>> 4) + 3
      let s' := lz77Copy width bytes disp { s with source := u32 (s.source + 2) }
      { s' with blockheader := s'.blockheader <<< 1, blocksRemaining := s'.blocksRemaining - 1 }
    else
      let byte := s.bus.loadU8 s.source
      let hb := putByte width s.dest byte s.halfword s.bus
      { s with source := u32 (s.source + 1), halfword := hb.1, bus := hb.2,
               dest := u32 (s.dest + 1), remaining := s.remaining - 1,
               blockheader := s.blockheader <<< 1, blocksRemaining := s.blocksRemaining - 1 }
  else
    { s with blockheader := s.bus.loadU8 s.source, source := u32 (s.source + 1),
             blocksRemaining := 8 }

/-- _unLz77's outer loop; the fuel counts outer iterations. -/
def lz77Loop (width : Nat) : Nat → Lz77State → Option Lz77State
  | fuel + 1, s => if s.remaining ≠ 0 then lz77Loop width fuel (lz77Body width s) else some s
  | 0, s => if s.remaining ≠ 0 then none else some s

/-- The handler _unLz77(gba, width): header at gprs[0] (low byte is the 0x10 signature,
assumed correct; upper 24 bits the decompressed length); on completion gprs
0 and 1 receive the final source and dest cursors and gprs[3] is cleared. -/
def _unLz77 (width : Nat) (fuel : Nat) (m : Machine) : Option Machine :=
  let source := m.gprs 0
  let dest := m.gprs 1
  let remaining := (m.bus.load32 source &&& 0xFFFFFF00) >>> 8
  let s0 : Lz77State :=
    { source := u32 (source + 4), dest := dest, remaining := remaining,
      blockheader := 0, blocksRemaining := 0, halfword := 0, bus := m.bus }
  match lz77Loop width fuel s0 with
  | none => none
  | some s => some ((({ m with bus := s.bus }).setGpr 0 s.source).setGpr 1 s.dest |>.setGpr 3 0)

/-- The HuffmanNode accessor: Offset is bits 0-5 (DECL_BITS(HuffmanNode, Offset, 0, 6)). -/
def HuffmanNodeGetOffset (node : Nat) : Nat := node &&& 0x3F

/-- The HuffmanNode accessor: RTerm is bit 6 (DECL_BIT(HuffmanNode, RTerm, 6)). -/
def HuffmanNodeIsRTerm (node : Nat) : Prop := node &&& 0x40 ≠ 0

/-- The HuffmanNode accessor: LTerm is bit 7 (DECL_BIT(HuffmanNode, LTerm, 7)). -/
def HuffmanNodeIsLTerm (node : Nat) : Prop := node &&& 0x80 ≠ 0

instance (node : Nat) : Decidable (HuffmanNodeIsRTerm node) := by
  unfold HuffmanNodeIsRTerm; infer_instance

instance (node : Nat) : Decidable (HuffmanNodeIsLTerm node) := by
  unfold HuffmanNodeIsLTerm; infer_instance

/-- Local state of _unHuffman's decode loop. `remaining` is a C int kept a
nonnegative multiple of 4 by the loop (masked before entry, decremented by 4
under a positive guard), so Nat coincides with the C arithmetic; `block` is
the 32-bit accumulator; `node` the current HuffmanNode byte. -/
structure HuffState where
  source : Nat
  dest : Nat
  remaining : Nat
  block : Nat
  bitsSeen : Nat
  nPointer : Nat
  node : Nat
  bus : Bus

/-- Leaf handling of _unHuffman's bit loop: OR the low `bits` bits of the leaf
byte into the accumulator at position bitsSeen, reset the walk to the tree
base, and when 32 bits have been assembled store32 the accumulator and
advance. -/
def huffEmit (bits treeBase readBits : Nat) (s : HuffState) : HuffState :=
  let s' :=
    { s with block := s.block ||| ((readBits &&& ((1 <<< bits) - 1)) <<< s.bitsSeen),
             bitsSeen := s.bitsSeen + bits, nPointer := treeBase,
             node := s.bus.loadU8 treeBase }
  if s'.bitsSeen = 32 then
    { s' with bitsSeen := 0, bus := s'.bus.store32 s'.dest s'.block,
              dest := u32 (s'.dest + 4), remaining := s'.remaining - 4, block := 0 }
  else s'

/-- Inner bit loop of _unHuffman:
`for (bitsRemaining = 32; bitsRemaining > 0 && remaining > 0; --bitsRemaining, bitstream <<= 1)`.
`bits` is the symbol width and `treeBase` the tree root address. The C reads
the leaf byte with the signed load8; only its low `bits ≤ 8` bits are used,
so the unsigned byte is value-equal. -/
def huffInner (bits treeBase : Nat) : Nat → Nat → HuffState → HuffState
  | 0, _, s => s
  | br + 1, bitstream, s =>
    if s.remaining = 0 then s
    else
      let next := u32 ((s.nPointer &&& 0xFFFFFFFE) + HuffmanNodeGetOffset s.node * 2 + 2)
      if bitstream &&& 0x80000000 ≠ 0 then
        if HuffmanNodeIsRTerm s.node then
          let readBits := s.bus.loadU8 (u32 (next + 1))
          huffInner bits treeBase br (u32 (bitstream <<< 1)) (huffEmit bits treeBase readBits s)
        else
          huffInner bits treeBase br (u32 (bitstream <<< 1))
            { s with nPointer := u32 (next + 1), node := s.bus.loadU8 (u32 (next + 1)) }
      else
        if HuffmanNodeIsLTerm s.node then
          let readBits := s.bus.loadU8 next
          huffInner bits treeBase br (u32 (bitstream <<< 1)) (huffEmit bits treeBase readBits s)
        else
          huffInner bits treeBase br (u32 (bitstream <<< 1))
            { s with nPointer := next, node := s.bus.loadU8 next }

/-- _unHuffman's outer `while (remaining > 0)` loop: read a 32-bit bitstream
word and run the inner bit loop. The fuel counts outer iterations; a
malformed tree whose walk never reaches a leaf makes the C loop forever,
which this models as `none`. -/
def huffLoop (bits treeBase : Nat) : Nat → HuffState → Option HuffState
  | fuel + 1, s =>
    if s.remaining ≠ 0 then
      let bitstream := s.bus.load32 s.source
      huffLoop bits treeBase fuel
        (huffInner bits treeBase 32 bitstream { s with source := u32 (s.source + 4) })
    else some s
  | 0, s => if s.remaining ≠ 0 then none else some s

/-- The handler _unHuffman(gba). The source is aligned down to a word boundary; the low
nibble of the header is the symbol width. When it is 0 the C evaluates
`32 % 0` (undefined behavior); Nat's `32 % 0 = 32` routes it into the same
abort branch the spec prescribes for widths not dividing 32. The C padding
expression `(4 - remaining) & 3` acts on a two's-complement int and equals
`(4 - remaining % 4) % 4`. -/
def _unHuffman (fuel : Nat) (m : Machine) : Option Machine :=
  let source := m.gprs 0 &&& 0xFFFFFFFC
  let dest := m.gprs 1
  let header := m.bus.load32 source
  let remaining := header >>> 8
  let bits := header &&& 0xF
  if 32 % bits ≠ 0 then some (m.log msgUnalignedHuffman)
  else
    let padding := (4 - remaining % 4) % 4
    let remaining := remaining &&& 0xFFFFFFFC
    let treesize := (m.bus.loadU8 (u32 (source + 4)) <<< 1) + 1
    let treeBase := u32 (source + 5)
    let s0 : HuffState :=
      { source := u32 (source + 5 + treesize), dest := dest, remaining := remaining,
        block := 0, bitsSeen := 0, nPointer := treeBase, node := m.bus.loadU8 treeBase,
        bus := m.bus }
    match huffLoop bits treeBase fuel s0 with
    | none => none
    | some s =>
      let bus := if padding ≠ 0 then s.bus.store32 s.dest s.block else s.bus
      some ((({ m with bus := bus }).setGpr 0 s.source).setGpr 1 s.dest)

/-- Local state of _unRl's decode loop; `remaining` as in `Lz77State`, and
`halfword` is explicitly initialized to 0 in the C. -/
structure RlState where
  source : Nat
  dest : Nat
  remaining : Nat
  halfword : Nat
  bus : Bus

/-- Compressed RLE run: `while (blockheader-- && remaining)` repeating the
single block byte. -/
def rlCompressedCopy (width : Nat) : Nat → Nat → RlState → RlState
  | 0, _, s => s
  | count + 1, block, s =>
    if s.remaining = 0 then s
    else
      let hb := putByte width s.dest block s.halfword s.bus
      rlCompressedCopy width count block
        { s with remaining := s.remaining - 1, halfword := hb.1, bus := hb.2,
                 dest := u32 (s.dest + 1) }

/-- Uncompressed RLE run: `while (blockheader-- && remaining)` copying source
bytes literally. -/
def rlUncompressedCopy (width : Nat) : Nat → RlState → RlState
  | 0, s => s
  | count + 1, s =>
    if s.remaining = 0 then s
    else
      let byte := s.bus.loadU8 s.source
      let hb := putByte width s.dest byte s.halfword s.bus
      rlUncompressedCopy width count
        { s with remaining := s.remaining - 1, source := u32 (s.source + 1),
                 halfword := hb.1, bus := hb.2, dest := u32 (s.dest + 1) }

/-- One iteration of _unRl's outer loop: read the flag byte; MSB set means a
compressed run of `(flag & 0x7F) + 3` copies of the next byte, MSB clear an
uncompressed run of `flag + 1` literal bytes. -/
def rlBody (width : Nat) (s : RlState) : RlState :=
  let blockheader := s.bus.loadU8 s.source
  let s1 := { s with source := u32 (s.source + 1) }
  if blockheader &&& 0x80 ≠ 0 then
    let count := (blockheader &&& 0x7F) + 3
    let block := s1.bus.loadU8 s1.source
    rlCompressedCopy width count block { s1 with source := u32 (s1.source + 1) }
  else
    rlUncompressedCopy width (blockheader + 1) s1

/-- _unRl's outer loop; the fuel counts outer iterations. -/
def rlLoop (width : Nat) : Nat → RlState → Option RlState
  | fuel + 1, s => if s.remaining ≠ 0 then rlLoop width fuel (rlBody width s) else some s
  | 0, s => if s.remaining ≠ 0 then none else some s

/-- The width-1 padding loop of _unRl: `while (padding--) { store8(dest, 0); ++dest; }`. -/
def rlPad8 (padding dest : Nat) (bus : Bus) : Nat × Bus :=
  if h : padding = 0 then (dest, bus)
  else rlPad8 (padding - 1) (u32 (dest + 1)) (bus.store8 dest 0)
termination_by padding
decreasing_by omega

/-- The width-2 padding loop of _unRl:
`for (; padding > 0; padding -= 2, dest += 2) store16(dest, 0);` (the C
`padding` is an int that may end at -1; with the `> 0` guard Nat truncation
at 0 stops the loop at the same point). -/
def rlPad16 (padding dest : Nat) (bus : Bus) : Nat × Bus :=
  if h : padding = 0 then (dest, bus)
  else rlPad16 (padding - 2) (u32 (dest + 2)) (bus.store16 dest 0)
termination_by padding
decreasing_by omega

/-- The handler _unRl(gba, width): source aligned down to a word boundary; after the main
loop the destination is zero-padded to a 4-byte boundary (width 2: if dest is
odd it first skips one byte, then stores zero halfwords). -/
def _unRl (width : Nat) (fuel : Nat) (m : Machine) : Option Machine :=
  let source := m.gprs 0 &&& 0xFFFFFFFC
  let remaining := (m.bus.load32 source &&& 0xFFFFFF00) >>> 8
  let padding := (4 - remaining % 4) % 4
  let dest := m.gprs 1
  let s0 : RlState :=
    { source := u32 (source + 4), dest := dest, remaining := remaining, halfword := 0,
      bus := m.bus }
  match rlLoop width fuel s0 with
  | none => none
  | some s =>
    let db :=
      if width = 2 then
        if s.dest &&& 1 ≠ 0 then rlPad16 (padding - 1) (u32 (s.dest + 1)) s.bus
        else rlPad16 padding s.dest s.bus
      else rlPad8 padding s.dest s.bus
    some ((({ m with bus := db.2 }).setGpr 0 s.source).setGpr 1 db.1)

/-- Local state of _unFilter's loop. `remaining` is a C int that can end at
-1 (16-bit output with an odd declared length), hence `Int` here; `halfword`
and `old` are uint16_t, initialized to 0. -/
structure UfState where
  source : Nat
  dest : Nat
  remaining : Int
  halfword : Nat
  old : Nat
  bus : Bus

/-- One iteration of _unFilter's loop: read `new` (8- or 16-bit), accumulate
`new += old` (uint16_t), then store per the width combination; the 1-to-2
case commits the scratch halfword only on an odd source address. `old` and
the source cursor advance every iteration. -/
def unFilterStep (inwidth outwidth : Nat) (s : UfState) : UfState :=
  let n0 := if inwidth = 1 then s.bus.loadU8 s.source else s.bus.loadU16 s.source
  let new := (n0 + s.old) % 65536
  let s' :=
    if outwidth > inwidth then
      let hw := ((s.halfword >>> 8) ||| (new <<< 8)) % 65536
      if s.source &&& 1 ≠ 0 then
        { s with halfword := hw, bus := s.bus.store16 s.dest hw,
                 dest := u32 (s.dest + outwidth),
                 remaining := s.remaining - (outwidth : Int) }
      else { s with halfword := hw }
    else if outwidth = 1 then
      { s with bus := s.bus.store8 s.dest new, dest := u32 (s.dest + outwidth),
               remaining := s.remaining - (outwidth : Int) }
    else
      { s with bus := s.bus.store16 s.dest new, dest := u32 (s.dest + outwidth),
               remaining := s.remaining - (outwidth : Int) }
  { s' with old := new, source := u32 (s'.source + inwidth) }

/-- _unFilter's `while (remaining > 0)` loop; the fuel counts iterations. -/
def unFilterLoop (inwidth outwidth : Nat) : Nat → UfState → Option UfState
  | fuel + 1, s =>
    if 0 < s.remaining then unFilterLoop inwidth outwidth fuel (unFilterStep inwidth outwidth s)
    else some s
  | 0, s => if 0 < s.remaining then none else some s

/-- The handler _unFilter(gba, inwidth, outwidth): differential decoder; source aligned
down to a word boundary, header's upper 24 bits the output length. -/
def _unFilter (inwidth outwidth : Nat) (fuel : Nat) (m : Machine) : Option Machine :=
  let source := m.gprs 0 &&& 0xFFFFFFFC
  let dest := m.gprs 1
  let header := m.bus.load32 source
  let s0 : UfState :=
    { source := u32 (source + 4), dest := dest, remaining := (header >>> 8 : Nat),
      halfword := 0, old := 0, bus := m.bus }
  match unFilterLoop inwidth outwidth fuel s0 with
  | none => none
  | some s => some ((({ m with bus := s.bus }).setGpr 0 s.source).setGpr 1 s.dest)

/-- Floating-point BIOS routines (_BgAffineSet, _ObjAffineSet, _MidiKey2Freq
and the sqrt / atan2 cases use host cosf/sinf/sqrt/powf/atan2f): outside the
integer embedding, modelled as opaque machine transformers supplied by the
caller. -/
structure FloatOps where
  bgAffineSet : Machine → Machine
  objAffineSet : Machine → Machine
  midiKey2Freq : Machine → Machine
  sqrtSwi : Machine → Machine
  arcTan2 : Machine → Machine

/-- Modelled from the spec: BASE_OFFSET from gba-memory.h (not under src/);
memory regions are selected by the address's high byte. -/
def BASE_OFFSET : Nat := 24

/-- Modelled from the spec: BASE_WORKING_RAM from gba-memory.h (not under
src/); sources below the working-RAM base point into the BIOS ROM. -/
def BASE_WORKING_RAM : Nat := 0x02000000

/-- Modelled from the spec: REGION_WORKING_RAM from gba-memory.h. -/
def REGION_WORKING_RAM : Int := 2

/-- Modelled from the spec: REGION_WORKING_IRAM from gba-memory.h. -/
def REGION_WORKING_IRAM : Int := 3

/-- Modelled from the spec: REGION_VRAM from gba-memory.h. -/
def REGION_VRAM : Int := 6

/-- The source/destination precheck shared by the codec dispatcher cases: a
source below the working-RAM base is logged (signed int comparison), and a
destination outside working RAM / IRAM / VRAM is logged (the C `switch` on
the arithmetically shifted `gprs[1] >> BASE_OFFSET` falls from `default:`
into the region cases, so the decode proceeds regardless). -/
def codecPrecheck (srcMsg dstMsg : String) (m : Machine) : Machine :=
  let m1 := if toS32 (m.gprs 0) < (BASE_WORKING_RAM : Int) then m.log srcMsg else m
  let region : Int := (toS32 (m1.gprs 1)).fdiv 16777216
  if region = REGION_WORKING_RAM ∨ region = REGION_WORKING_IRAM ∨ region = REGION_VRAM then m1
  else m1.log dstMsg

/-- External inputs of the dispatcher: the full-BIOS flag, the BIOS ROM image
(word index to uint32_t word) and its size SIZE_BIOS (a gba-memory.h
constant, kept abstract). -/
structure GbaEnv where
  fullBios : Bool
  bios : Nat → Nat
  biosSize : Nat

/-- The dispatcher GBASwi16(cpu, immediate): log the entry, delegate to ARMRaiseSWI when the
full-BIOS flag is set, otherwise switch on the immediate. Case 0xD computes
the BIOS checksum into gprs[0] and falls through into the 0xE BgAffineSet
case, as in the C. The fuel is passed to the codec loops. -/
def GBASwi16 (fo : FloatOps) (env : GbaEnv) (fuel : Nat) (immediate : Nat) (m0 : Machine) :
    Option Machine :=
  let m := m0.log msgSwiEntry
  if env.fullBios then some { m with raises := m.raises + 1 }
  else
    match immediate with
    | 0x1 => some (m.log msgRamResetStub)
    | 0x2 => some { m with halts := m.halts + 1 }
    | 0x05 => some { m with raises := m.raises + 1 }
    | 0x04 => some { m with raises := m.raises + 1 }
    | 0x6 => some (_Div m (toS32 (m.gprs 0)) (toS32 (m.gprs 1)))
    | 0x7 => some (_Div m (toS32 (m.gprs 1)) (toS32 (m.gprs 0)))
    | 0x8 => some (fo.sqrtSwi m)
    | 0xA => some (fo.arcTan2 m)
    | 0xB => some { m with raises := m.raises + 1 }
    | 0xC => some { m with raises := m.raises + 1 }
    | 0xD => some (fo.bgAffineSet (m.setGpr 0 (GBAChecksum env.bios env.biosSize)))
    | 0xE => some (fo.bgAffineSet m)
    | 0xF => some (fo.objAffineSet m)
    | 0x11 => _unLz77 1 fuel (codecPrecheck msgBadLzSource msgBadLzDest m)
    | 0x12 => _unLz77 2 fuel (codecPrecheck msgBadLzSource msgBadLzDest m)
    | 0x13 => _unHuffman fuel (codecPrecheck msgBadHuffSource msgBadHuffDest m)
    | 0x14 => _unRl 1 fuel (codecPrecheck msgBadRlSource msgBadRlDest m)
    | 0x15 => _unRl 2 fuel (codecPrecheck msgBadRlSource msgBadRlDest m)
    | 0x16 => _unFilter 1 1 fuel (codecPrecheck msgBadUfSource msgBadUfDest m)
    | 0x17 => _unFilter 1 2 fuel (codecPrecheck msgBadUfSource msgBadUfDest m)
    | 0x18 => _unFilter 2 2 fuel (codecPrecheck msgBadUfSource msgBadUfDest m)
    | 0x1F => some (fo.midiKey2Freq m)
    | _ => some (m.log msgStub)

/-- The variant GBASwi32(cpu, immediate): shifts the immediate right by 16 and delegates. -/
def GBASwi32 (fo : FloatOps) (env : GbaEnv) (fuel : Nat) (immediate : Nat) (m : Machine) :
    Option Machine :=
  GBASwi16 fo env fuel (immediate >>> 16) m

/-- Reference semantics of an LZ77 back-reference chunk, following the spec's
sentence for claim C3: copy `len` bytes one at a time from the read cursor to
the destination, each read seeing every earlier write of the same chunk. -/
def lzRefCopy (bus : Bus) (cursor dest : Nat) : Nat → Bus
  | 0 => bus
  | len + 1 => lzRefCopy (bus.store8 dest (bus.loadU8 cursor)) (u32 (cursor + 1)) (u32 (dest + 1)) len


/-! Concrete machines used by the witness and counterexample theorems below.
Codec machines place the compressed stream at 0x02000100 and the destination
at 0x02000000, both in working RAM. -/

def mkMachine (g f : Nat → Nat) : Machine :=
  { gprs := g, bus := { mem := f, stores := [] }, msgs := [], raises := 0, halts := 0 }

def codecGprs (src dst : Nat) : Nat → Nat :=
  fun i => if i = 0 then src else if i = 1 then dst else 0

def mC5 : Machine := mkMachine (fun _ => 0) (fun _ => 0)

def mC6 : Machine := mkMachine (fun _ => 0) (fun _ => 0)

def wLzBytesM : Machine :=
  mkMachine (codecGprs 0x02000100 0x02000000)
    (fun a => if a = 0x02000100 then 0x10 else if a = 0x02000101 then 8 else
      if a = 0x02000104 then 0x00 else
      if 0x02000105 ≤ a ∧ a ≤ 0x0200010C then 65 + (a - 0x02000105) else 0)

def wHufBytesM : Machine :=
  mkMachine (codecGprs 0x02000100 0x02000000)
    (fun a => if a = 0x02000100 then 0x21 else if a = 0x02000101 then 4 else
      if a = 0x02000104 then 1 else if a = 0x02000105 then 0xC0 else
      if a = 0x02000106 then 0 else if a = 0x02000107 then 1 else
      if 0x02000108 ≤ a ∧ a ≤ 0x0200010B then 0xAA else 0)

def wRlBytesM : Machine :=
  mkMachine (codecGprs 0x02000100 0x02000000)
    (fun a => if a = 0x02000100 then 0x30 else if a = 0x02000101 then 10 else
      if a = 0x02000104 then 0x82 else if a = 0x02000105 then 0x41 else
      if a = 0x02000106 then 0x02 else if a = 0x02000107 then 0x42 else
      if a = 0x02000108 then 0x43 else if a = 0x02000109 then 0x44 else
      if a = 0x0200010A then 0x81 else if a = 0x0200010B then 0x45 else 0)

def wUfBytesM : Machine :=
  mkMachine (codecGprs 0x02000100 0x02000000)
    (fun a => if a = 0x02000100 then 0x81 else if a = 0x02000101 then 4 else
      if a = 0x02000104 then 1 else if a = 0x02000105 then 2 else
      if a = 0x02000106 then 3 else if a = 0x02000107 then 4 else 0)

def cexC1M : Machine :=
  mkMachine (codecGprs 0x02000100 0x02000000)
    (fun a => if a = 0x02000100 then 0x82 else if a = 0x02000101 then 1 else 0)

def cexC2S : UfState :=
  { source := 0x02000104, dest := 0x02000000, remaining := 4, halfword := 0, old := 0,
    bus := { mem := fun _ => 1, stores := [] } }

def wC2Stop : UfState :=
  { source := 0x02000104, dest := 0x02000000, remaining := 0, halfword := 0, old := 0,
    bus := { mem := fun _ => 0, stores := [] } }

def cexC3M : Machine :=
  mkMachine (codecGprs 0x02000100 0x02000000)
    (fun a => if a = 0x02000100 then 0x10 else if a = 0x02000101 then 3 else
      if a = 0x02000104 then 0x80 else if a = 0x02000105 then 0x00 else
      if a = 0x02000106 then 0x00 else
      if a = 0x01FFFFFF then 65 else if a = 0x02000000 then 7 else 0)

def wChunkBus : Bus :=
  { mem := fun a => if a = 0x02000105 then 0x13 else if a = 0x02000106 then 0x03 else
      if a = 0x01FFFCFC then 42 else 0,
    stores := [] }

def wChunkState : Lz77State :=
  { source := 0x02000105, dest := 0x02000000, remaining := 8, blockheader := 0x80,
    blocksRemaining := 8, halfword := 0, bus := wChunkBus }

def wC4M : Machine :=
  mkMachine (codecGprs 0x02000100 0x02000000)
    (fun a => if a = 0x02000100 then 0x23 else if a = 0x02000101 then 2 else 0)

def cexC7M : Machine :=
  mkMachine (codecGprs 0x02000100 0x02000000)
    (fun a => if a = 0x02000100 then 0x21 else if a = 0x02000101 then 1 else 0)

def wC7M : Machine :=
  mkMachine (codecGprs 0x02000100 0x02000000)
    (fun a => if a = 0x02000100 then 0x81 else if a = 0x02000101 then 4 else
      if a = 0x02000104 then 1 else if a = 0x02000105 then 2 else
      if a = 0x02000106 then 3 else if a = 0x02000107 then 4 else 0)

def foC8 : FloatOps :=
  { bgAffineSet := id, objAffineSet := id, midiKey2Freq := id, sqrtSwi := id, arcTan2 := id }

def envC8 : GbaEnv := { fullBios := false, bios := fun _ => 7, biosSize := 8 }

def mC8 : Machine := mkMachine (fun _ => 0) (fun _ => 0)

def foC9 : FloatOps :=
  { bgAffineSet := id, objAffineSet := id, midiKey2Freq := id, sqrtSwi := id, arcTan2 := id }

def envC9 : GbaEnv := { fullBios := true, bios := fun _ => 0, biosSize := 4 }

def mC9 : Machine := mkMachine (fun i => i) (fun _ => 0)

def wRlTermM : Machine :=
  mkMachine (codecGprs 0x02000100 0x02000000)
    (fun a => if a = 0x02000100 then 0x30 else if a = 0x02000101 then 5 else
      if a = 0x02000104 then 0x82 else if a = 0x02000105 then 0x41 else 0)


/-! Helper lemmas. -/

/-- Core mask lemma: AND with a shifted all-ones mask extracts a bit field. -/
theorem and_mask_shift (x a k : Nat) : x &&& ((2 ^ a - 1) <<< k) = x / 2 ^ k % 2 ^ a * 2 ^ k := by
  apply Nat.eq_of_testBit_eq
  intro i
  rw [Nat.testBit_and, Nat.testBit_shiftLeft, Nat.testBit_two_pow_sub_one,
    ← Nat.shiftLeft_eq, Nat.testBit_shiftLeft, ← Nat.shiftRight_eq_div_pow]
  rcases Nat.lt_or_ge i k with h | h
  · have h1 : decide (k ≤ i) = false := by simp; omega
    rw [h1]
    simp
  · have h1 : decide (k ≤ i) = true := by simp [h]
    have h3 : k + (i - k) = i := by omega
    rw [h1, Nat.testBit_mod_two_pow, Nat.testBit_shiftRight, h3]
    cases x.testBit i <;> cases (decide (i - k < a)) <;> simp

/-- ORing a value below 2^k with a left-shift by k is addition. -/
theorem or_low (x y k : Nat) (h : x < 2 ^ k) : x ||| (y <<< k) = 2 ^ k * y + x := by
  apply Nat.eq_of_testBit_eq
  intro i
  rw [Nat.testBit_or, Nat.testBit_shiftLeft, Nat.testBit_mul_pow_two_add y h i]
  rcases Nat.lt_or_ge i k with hi | hi
  · have h1 : decide (k ≤ i) = false := by simp; omega
    rw [h1, if_pos hi]
    simp
  · have h1 : decide (k ≤ i) = true := by simp [hi]
    rw [h1, if_neg (by omega)]
    have hx : x.testBit i = false :=
      Nat.testBit_lt_two_pow (Nat.lt_of_lt_of_le h (Nat.pow_le_pow_right (by norm_num) hi))
    rw [hx]
    simp

/-- Signed read-back of a stored signed value (no overflow). -/
theorem toS32_u32_ofS32 (x : Int) (h1 : -2147483648 ≤ x) (h2 : x < 2147483648) :
    toS32 (u32 (ofS32 x)) = x := by
  simp only [toS32, ofS32, u32, U32]
  split <;> omega

/-- Claim C6: for every signed numerator n, the Div SWI with denominator 0
leaves r0 = +1 if n >= 0 and -1 if n < 0, r1 = n, and r3 = 1. Stated over
int32-range numerators, matching the int32_t argument of _Div. -/
theorem claim_C6_div_zero (m : Machine) (num : Int)
    (h1 : -2147483648 ≤ num) (h2 : num < 2147483648) :
    toS32 ((_Div m num 0).gprs 0) = (if num < 0 then -1 else 1) ∧
    toS32 ((_Div m num 0).gprs 1) = num ∧
    toS32 ((_Div m num 0).gprs 3) = 1 := by
  simp only [_Div, if_neg, ne_eq, not_true_eq_false, reduceIte, Machine.setGpr, Machine.log]
  norm_num
  refine ⟨?_, ?_, ?_⟩
  · split <;> · rw [toS32_u32_ofS32] <;> omega
  · rw [toS32_u32_ofS32] <;> omega
  · decide

/-- Magnitude of the C truncated remainder. -/
theorem natAbs_tmod (a b : Int) : (a.tmod b).natAbs = a.natAbs % b.natAbs := by
  cases a with
  | ofNat m =>
    cases b with
    | ofNat n => rfl
    | negSucc n => rfl
  | negSucc m =>
    cases b with
    | ofNat n =>
      rw [show (Int.negSucc m).tmod (Int.ofNat n) = -Int.ofNat ((m + 1) % n) from rfl,
        Int.natAbs_neg]
      rfl
    | negSucc n =>
      rw [show (Int.negSucc m).tmod (Int.negSucc n) = -Int.ofNat ((m + 1) % (n + 1)) from rfl,
        Int.natAbs_neg]
      rfl

/-- The C truncated remainder of a nonpositive dividend is nonpositive. -/
theorem tmod_nonpos_of_nonpos (a b : Int) (h : a ≤ 0) : a.tmod b ≤ 0 := by
  cases a with
  | ofNat m =>
    have hm : m = 0 := by
      simp only [Int.ofNat_eq_coe] at h
      omega
    subst hm
    simp
  | negSucc m =>
    cases b with
    | ofNat n =>
      rw [show (Int.negSucc m).tmod (Int.ofNat n) = -Int.ofNat ((m + 1) % n) from rfl]
      have h0 : (0 : Int) ≤ Int.ofNat ((m + 1) % n) := Int.ofNat_nonneg _
      omega
    | negSucc n =>
      rw [show (Int.negSucc m).tmod (Int.negSucc n) = -Int.ofNat ((m + 1) % (n + 1)) from rfl]
      have h0 : (0 : Int) ≤ Int.ofNat ((m + 1) % (n + 1)) := Int.ofNat_nonneg _
      omega

/-- Claim C5: for every signed numerator n and nonzero denominator d, the Div
SWI leaves r0 = the truncated quotient, r1 = the remainder with the sign of
the dividend, and r3 = the absolute value of the quotient, so that
r0 * d + r1 = n. Stated over int32-range arguments; the two corners where the
C library calls div(INT32_MIN, -1) or abs(INT32_MIN) (both undefined behavior
in C) are excluded. -/
theorem claim_C5_div_nonzero (m : Machine) (num denom : Int)
    (hn1 : -2147483648 ≤ num) (hn2 : num < 2147483648)
    (hd1 : -2147483648 ≤ denom) (hd2 : denom < 2147483648)
    (hd : denom ≠ 0)
    (hov : ¬(num = -2147483648 ∧ (denom = 1 ∨ denom = -1))) :
    toS32 ((_Div m num denom).gprs 0) = num.tdiv denom ∧
    toS32 ((_Div m num denom).gprs 0) * denom + toS32 ((_Div m num denom).gprs 1) = num ∧
    (0 ≤ num → 0 ≤ toS32 ((_Div m num denom).gprs 1)) ∧
    (num ≤ 0 → toS32 ((_Div m num denom).gprs 1) ≤ 0) ∧
    toS32 ((_Div m num denom).gprs 3) = |num.tdiv denom| := by
  have hqabs : (num.tdiv denom).natAbs = num.natAbs / denom.natAbs := Int.natAbs_tdiv num denom
  have hrabs : (num.tmod denom).natAbs = num.natAbs % denom.natAbs := natAbs_tmod num denom
  have hdpos : 0 < denom.natAbs := by omega
  have hqlt : (num.tdiv denom).natAbs < 2147483648 := by
    rcases Nat.lt_or_ge denom.natAbs 2 with h2 | h2
    · have hd1' : denom.natAbs = 1 := by omega
      have : num.natAbs ≠ 2147483648 := by
        intro hc
        apply hov
        constructor
        · omega
        · omega
      rw [hqabs, hd1', Nat.div_one]
      omega
    · have : num.natAbs / denom.natAbs ≤ num.natAbs / 2 := Nat.div_le_div_left h2 (by norm_num)
      rw [hqabs]
      omega
  have hrlt : (num.tmod denom).natAbs < 2147483648 := by
    have := Nat.mod_lt num.natAbs hdpos
    omega
  have hq1 : -2147483648 < num.tdiv denom := by omega
  have hq2 : num.tdiv denom < 2147483648 := by omega
  have hr1 : -2147483648 < num.tmod denom := by omega
  have hr2 : num.tmod denom < 2147483648 := by omega
  have heq : denom * num.tdiv denom + num.tmod denom = num := Int.tdiv_add_tmod num denom
  simp only [_Div, if_pos hd, Machine.setGpr]
  norm_num
  refine ⟨?_, ?_, ?_, ?_, ?_⟩
  · rw [toS32_u32_ofS32] <;> omega
  · rw [toS32_u32_ofS32, toS32_u32_ofS32] <;> try omega
    linarith [heq, mul_comm (num.tdiv denom) denom]
  · intro h
    rw [toS32_u32_ofS32] <;> try omega
    exact Int.tmod_nonneg denom h
  · intro h
    rw [toS32_u32_ofS32] <;> try omega
    exact tmod_nonpos_of_nonpos num denom h
  · have habs : |num.tdiv denom| = ((num.tdiv denom).natAbs : Int) := Int.abs_eq_natAbs _
    rw [toS32_u32_ofS32]
    · omega
    · rw [habs]
      omega

/-- Claim C9: for every SWI immediate and every starting register state, when
the full-BIOS flag is set the dispatcher calls the CPU's raise-SWI routine
exactly once and returns with every guest register unchanged and no memory
store performed (only the entry log message is emitted). -/
theorem claim_C9_fullbios_passthrough (fo : FloatOps) (env : GbaEnv) (fuel immediate : Nat) (m : Machine)
    (h : env.fullBios = true) :
    GBASwi16 fo env fuel immediate m =
      some { m with msgs := msgSwiEntry :: m.msgs, raises := m.raises + 1 } := by
  simp [GBASwi16, Machine.log, h]

/-- Claim C8: when the full-BIOS flag is clear, invoking SWI 0x0D sets r0 to
the 32-bit word-sum checksum of the BIOS ROM and then, without returning,
behaves exactly as the 0x0E BgAffineSet case on the updated registers: the
0x0D case falls through into the 0x0E case, for every opaque BgAffineSet
collaborator. -/
theorem claim_C8_checksum_fallthrough (fo : FloatOps) (env : GbaEnv) (fuel : Nat) (m : Machine)
    (h : env.fullBios = false) :
    GBASwi16 fo env fuel 0xD m =
      GBASwi16 fo env fuel 0xE (m.setGpr 0 (GBAChecksum env.bios env.biosSize)) := by
  simp [GBASwi16, Machine.log, Machine.setGpr, h]

/-- Claim C4: for every Huffman decode call whose header's low nibble w does
not divide 32 (32 % w is nonzero), the handler logs and returns with guest
memory, the store trace, and the register file exactly as before the call. -/
theorem claim_C4_huffman_misalign (fuel : Nat) (m : Machine)
    (h : 32 % (m.bus.load32 (m.gprs 0 &&& 0xFFFFFFFC) &&& 0xF) ≠ 0) :
    _unHuffman fuel m = some { m with msgs := msgUnalignedHuffman :: m.msgs } := by
  simp only [_unHuffman, Machine.log]
  rw [if_pos h]

/-- Claim C2 (amended): in every UnFilter iteration, `old` is updated to the
newly accumulated value and the source pointer advances by inwidth; in the
1-to-1 and 2-to-2 cases `remaining` is decremented by outwidth and the
destination advances by outwidth with a store every iteration; in the 1-to-2
case the scratch halfword is shifted and merged every iteration, but the
16-bit commit, the destination advance, and the `remaining` decrement happen
only on odd source offsets; the loop stops when `remaining` is no longer
positive. (The original claim's per-iteration decrement/advance fails for the
1-to-2 case on even source offsets.) -/
theorem claim_C2_unfilter_iteration (s : UfState) :
    (unFilterStep 1 1 s =
      { s with bus := s.bus.store8 s.dest ((s.bus.loadU8 s.source + s.old) % 65536),
               dest := u32 (s.dest + 1), remaining := s.remaining - 1,
               old := (s.bus.loadU8 s.source + s.old) % 65536, source := u32 (s.source + 1) }) ∧
    (unFilterStep 2 2 s =
      { s with bus := s.bus.store16 s.dest ((s.bus.loadU16 s.source + s.old) % 65536),
               dest := u32 (s.dest + 2), remaining := s.remaining - 2,
               old := (s.bus.loadU16 s.source + s.old) % 65536, source := u32 (s.source + 2) }) ∧
    (unFilterStep 1 2 s =
      if s.source &&& 1 ≠ 0 then
        { s with halfword := ((s.halfword >>> 8) |||
                   (((s.bus.loadU8 s.source + s.old) % 65536) <<< 8)) % 65536,
                 bus := s.bus.store16 s.dest (((s.halfword >>> 8) |||
                   (((s.bus.loadU8 s.source + s.old) % 65536) <<< 8)) % 65536),
                 dest := u32 (s.dest + 2), remaining := s.remaining - 2,
                 old := (s.bus.loadU8 s.source + s.old) % 65536, source := u32 (s.source + 1) }
      else
        { s with halfword := ((s.halfword >>> 8) |||
                   (((s.bus.loadU8 s.source + s.old) % 65536) <<< 8)) % 65536,
                 old := (s.bus.loadU8 s.source + s.old) % 65536,
                 source := u32 (s.source + 1) }) ∧
    (∀ inwidth outwidth fuel, s.remaining ≤ 0 → unFilterLoop inwidth outwidth fuel s = some s) := by
  refine ⟨rfl, ?_, ?_, ?_⟩
  · show unFilterStep 2 2 s = _
    norm_num [unFilterStep]
  · have hand : s.source &&& 1 = s.source % 2 := Nat.and_one_is_mod s.source
    by_cases hp : s.source &&& 1 ≠ 0
    · have hp' : s.source % 2 = 1 := by omega
      rw [if_pos hp]
      norm_num [unFilterStep, hp']
    · have hp' : ¬(s.source % 2 = 1) := by omega
      rw [if_neg hp]
      norm_num [unFilterStep, hp']
  · intro iw ow fuel h
    cases fuel <;> simp [unFilterLoop, Int.not_lt.mpr h]

/-- The compressed-run copy never increases `remaining`. -/
theorem rlCompressedCopy_le (width : Nat) :
    ∀ count block s, (rlCompressedCopy width count block s).remaining ≤ s.remaining := by
  intro count
  induction count with
  | zero => intro block s; exact Nat.le_refl _
  | succ n ih =>
    intro block s
    simp only [rlCompressedCopy]
    split
    · exact Nat.le_refl _
    · exact Nat.le_trans (ih _ _) (Nat.sub_le _ _)

/-- The uncompressed-run copy never increases `remaining`. -/
theorem rlUncompressedCopy_le (width : Nat) :
    ∀ count s, (rlUncompressedCopy width count s).remaining ≤ s.remaining := by
  intro count
  induction count with
  | zero => intro s; exact Nat.le_refl _
  | succ n ih =>
    intro s
    simp only [rlUncompressedCopy]
    split
    · exact Nat.le_refl _
    · exact Nat.le_trans (ih _) (Nat.sub_le _ _)

/-- A nonempty compressed run with bytes still owed strictly decreases `remaining`. -/
theorem rlCompressedCopy_lt (width count block : Nat) (s : RlState)
    (hc : count ≠ 0) (hr : s.remaining ≠ 0) :
    (rlCompressedCopy width count block s).remaining < s.remaining := by
  cases count with
  | zero => exact absurd rfl hc
  | succ n =>
    simp only [rlCompressedCopy]
    rw [if_neg hr]
    exact Nat.lt_of_le_of_lt (rlCompressedCopy_le width n block _) (by simp; omega)

/-- A nonempty uncompressed run with bytes still owed strictly decreases `remaining`. -/
theorem rlUncompressedCopy_lt (width count : Nat) (s : RlState)
    (hc : count ≠ 0) (hr : s.remaining ≠ 0) :
    (rlUncompressedCopy width count s).remaining < s.remaining := by
  cases count with
  | zero => exact absurd rfl hc
  | succ n =>
    simp only [rlUncompressedCopy]
    rw [if_neg hr]
    exact Nat.lt_of_le_of_lt (rlUncompressedCopy_le width n _) (by simp; omega)

/-- Every outer RLE iteration strictly decreases `remaining`: both run kinds
have length at least 1 (compressed: (flag & 0x7F) + 3; uncompressed: flag + 1). -/
theorem rlBody_lt (width : Nat) (s : RlState) (hr : s.remaining ≠ 0) :
    (rlBody width s).remaining < s.remaining := by
  unfold rlBody
  dsimp only
  split
  · exact rlCompressedCopy_lt width _ _ _ (by omega) hr
  · exact rlUncompressedCopy_lt width _ _ (by omega) hr

/-- The RLE outer loop completes whenever the fuel is at least `remaining`. -/
theorem rlLoop_isSome (width : Nat) : ∀ fuel s, s.remaining ≤ fuel → (rlLoop width fuel s).isSome := by
  intro fuel
  induction fuel with
  | zero =>
    intro s h
    have h0 : s.remaining = 0 := by omega
    simp [rlLoop, h0]
  | succ n ih =>
    intro s h
    by_cases hr : s.remaining = 0
    · simp [rlLoop, hr]
    · have hlt := rlBody_lt width s hr
      simp only [rlLoop]
      rw [if_pos hr]
      exact ih _ (by omega)

/-- Claim C10: the RLE decoder terminates for every header, source and
destination: every outer iteration consumes a flag byte whose run length is
at least 1, so `remaining` strictly decreases per outer iteration, and a fuel
of `declared length` outer iterations always completes the loop. -/
theorem claim_C10_rle_termination :
    (∀ width s, s.remaining ≠ 0 → (rlBody width s).remaining < s.remaining) ∧
    (∀ width fuel m,
      (m.bus.load32 (m.gprs 0 &&& 0xFFFFFFFC) &&& 0xFFFFFF00) >>> 8 ≤ fuel →
      (_unRl width fuel m).isSome) := by
  constructor
  · intro width s h
    exact rlBody_lt width s h
  · intro width fuel m h
    unfold _unRl
    have hs := rlLoop_isSome width fuel
      { source := u32 ((m.gprs 0 &&& 0xFFFFFFFC) + 4), dest := m.gprs 1,
        remaining := (m.bus.load32 (m.gprs 0 &&& 0xFFFFFFFC) &&& 0xFFFFFF00) >>> 8,
        halfword := 0, bus := m.bus } h
    dsimp only
    obtain ⟨s, hm⟩ := Option.isSome_iff_exists.mp hs
    rw [hm]
    simp

/-- Reduction to 32 bits is bounded. -/
theorem u32_lt (n : Nat) : u32 n < U32 := Nat.mod_lt _ (by norm_num [U32])

/-- Reduction to 32 bits composes with addition. -/
theorem u32_add_left (a b : Nat) : u32 (u32 a + b) = u32 (a + b) := by
  simp [u32, U32, Nat.mod_add_mod]

/-- Reduction to 32 bits is the identity below 2^32. -/
theorem u32_eq_of_lt {n : Nat} (h : n < U32) : u32 n = n := Nat.mod_eq_of_lt h

/-- Any 32-bit bus load is below 2^32. -/
theorem load32_lt (b : Bus) (a : Nat) : b.load32 a < U32 := by
  have h0 : b.mem (u32 a) % 256 < 256 := Nat.mod_lt _ (by norm_num)
  have h1 : b.mem (u32 (a + 1)) % 256 < 256 := Nat.mod_lt _ (by norm_num)
  have h2 : b.mem (u32 (a + 2)) % 256 < 256 := Nat.mod_lt _ (by norm_num)
  have h3 : b.mem (u32 (a + 3)) % 256 < 256 := Nat.mod_lt _ (by norm_num)
  simp only [Bus.load32, Bus.loadU8, U32]
  omega

/-- The byte total of a store trace is additive over concatenation. -/
theorem sumBytes_append (l1 l2 : List (Nat × Nat × Nat)) :
    sumBytes (l1 ++ l2) = sumBytes l1 + sumBytes l2 := by
  induction l1 with
  | nil => simp [sumBytes]
  | cons e t ih => simp [sumBytes, ih]; omega

/-- Invariant of the inner LZ77 copy loop: `remaining` never grows, the
destination cursor advances by exactly the `remaining` decrease, the other
loop registers are untouched, and in width-1 mode the store trace grows by
one byte per `remaining` decrement. -/
theorem lz77Copy_inv (width : Nat) :
    ∀ bytes disp s, s.dest < U32 →
      (lz77Copy width bytes disp s).remaining ≤ s.remaining ∧
      (lz77Copy width bytes disp s).dest =
        u32 (s.dest + (s.remaining - (lz77Copy width bytes disp s).remaining)) ∧
      (lz77Copy width bytes disp s).dest < U32 ∧
      (lz77Copy width bytes disp s).source = s.source ∧
      (lz77Copy width bytes disp s).blockheader = s.blockheader ∧
      (lz77Copy width bytes disp s).blocksRemaining = s.blocksRemaining ∧
      (width = 1 → ∃ l, (lz77Copy width bytes disp s).bus.stores = l ++ s.bus.stores ∧
        sumBytes l = s.remaining - (lz77Copy width bytes disp s).remaining) := by
  intro bytes
  induction bytes with
  | zero =>
    intro disp s hd
    have he : lz77Copy width 0 disp s = s := rfl
    rw [he]
    exact ⟨Nat.le_refl _, by rw [Nat.sub_self, Nat.add_zero, u32_eq_of_lt hd], hd, rfl, rfl, rfl,
      fun _ => ⟨[], by simp, by simp [sumBytes]⟩⟩
  | succ n ih =>
    intro disp s hd
    by_cases hr : s.remaining = 0
    · have he : lz77Copy width (n + 1) disp s = s := by
        simp only [lz77Copy]
        rw [if_pos hr]
      rw [he]
      exact ⟨Nat.le_refl _, by rw [Nat.sub_self, Nat.add_zero, u32_eq_of_lt hd], hd, rfl, rfl, rfl,
        fun _ => ⟨[], by simp, by simp [sumBytes]⟩⟩
    · set s1 : Lz77State :=
        { s with remaining := s.remaining - 1,
                 halfword := (putByte width s.dest (s.bus.loadU8 disp) s.halfword s.bus).1,
                 bus := (putByte width s.dest (s.bus.loadU8 disp) s.halfword s.bus).2,
                 dest := u32 (s.dest + 1) } with hs1
      have e1 : s1.remaining = s.remaining - 1 := by rw [hs1]
      have e2 : s1.dest = u32 (s.dest + 1) := by rw [hs1]
      have e4 : s1.source = s.source := by rw [hs1]
      have e5 : s1.blockheader = s.blockheader := by rw [hs1]
      have e6 : s1.blocksRemaining = s.blocksRemaining := by rw [hs1]
      have e3 : s1.bus = (putByte width s.dest (s.bus.loadU8 disp) s.halfword s.bus).2 := by
        rw [hs1]
      have hexp : lz77Copy width (n + 1) disp s = lz77Copy width n (u32 (disp + 1)) s1 := by
        simp only [lz77Copy]
        rw [if_neg hr]
      clear_value s1
      obtain ⟨h1, h2, h3, h4, h5, h6, h7⟩ := ih (u32 (disp + 1)) s1 (by rw [e2]; exact u32_lt _)
      rw [hexp]
      rw [e1] at h1
      rw [e1, e2] at h2
      rw [e4] at h4
      rw [e5] at h5
      rw [e6] at h6
      refine ⟨Nat.le_trans h1 (Nat.sub_le _ _), ?_, h3, h4, h5, h6, ?_⟩
      · rw [h2, u32_add_left]
        congr 1
        clear h7 e3 hexp hs1
        omega
      · intro hw
        subst hw
        obtain ⟨l, hl, hsum⟩ := h7 rfl
        rw [e1] at hsum
        refine ⟨l ++ [(u32 s.dest, 1, s.bus.loadU8 disp % 256)], ?_, ?_⟩
        · rw [hl, e3]
          rw [show (putByte 1 s.dest (s.bus.loadU8 disp) s.halfword s.bus).2 =
            s.bus.store8 s.dest (s.bus.loadU8 disp) from rfl]
          simp [Bus.store8]
        · rw [sumBytes_append]
          simp only [sumBytes, Nat.add_zero]
          clear h7 e3 hexp hs1 hl
          omega

/-- Invariant of one outer LZ77 iteration (under the loop guard): `remaining`
never grows, the destination advances by the `remaining` decrease, and in
width-1 mode the trace grows by one byte per decrement. -/
theorem lz77Body_inv (width : Nat) (s : Lz77State) (hd : s.dest < U32) (hr : s.remaining ≠ 0) :
    (lz77Body width s).remaining ≤ s.remaining ∧
    (lz77Body width s).dest = u32 (s.dest + (s.remaining - (lz77Body width s).remaining)) ∧
    (lz77Body width s).dest < U32 ∧
    (width = 1 → ∃ l, (lz77Body width s).bus.stores = l ++ s.bus.stores ∧
      sumBytes l = s.remaining - (lz77Body width s).remaining) := by
  unfold lz77Body
  by_cases hb : s.blocksRemaining ≠ 0
  · rw [if_pos hb]
    by_cases hc : s.blockheader &&& 0x80 ≠ 0
    · rw [if_pos hc]
      dsimp only
      obtain ⟨h1, h2, h3, h4, h5, h6, h7⟩ :=
        lz77Copy_inv width
          ((((s.bus.loadU8 s.source ||| s.bus.loadU8 (u32 (s.source + 1)) <<< 8) &&& 240) >>> 4) + 3)
          (sub32 (sub32 s.dest
            (((s.bus.loadU8 s.source ||| s.bus.loadU8 (u32 (s.source + 1)) <<< 8) &&& 15) <<< 8 |||
              ((s.bus.loadU8 s.source ||| s.bus.loadU8 (u32 (s.source + 1)) <<< 8) &&& 65280) >>> 8)) 1)
          { s with source := u32 (s.source + 2) } hd
      exact ⟨h1, h2, h3, h7⟩
    · rw [if_neg hc]
      dsimp only
      refine ⟨Nat.sub_le _ _, ?_, u32_lt _, ?_⟩
      · congr 1
        omega
      · intro hw
        subst hw
        refine ⟨[(u32 s.dest, 1, s.bus.loadU8 s.source % 256)], ?_, ?_⟩
        · rw [show (putByte 1 s.dest (s.bus.loadU8 s.source) s.halfword s.bus).2 =
            s.bus.store8 s.dest (s.bus.loadU8 s.source) from rfl]
          simp [Bus.store8]
        · simp only [sumBytes]
          omega
  · rw [if_neg hb]
    dsimp only
    refine ⟨Nat.le_refl _, ?_, hd, fun _ => ⟨[], by simp, by simp [sumBytes]⟩⟩
    rw [Nat.sub_self, Nat.add_zero, u32_eq_of_lt hd]

/-- Invariant of the full LZ77 loop: a completing run ends with `remaining`
zero, the destination advanced by exactly the initial `remaining`, and (width
1) exactly that many bytes traced. -/
theorem lz77Loop_inv (width : Nat) :
    ∀ fuel s t, s.dest < U32 → lz77Loop width fuel s = some t →
      t.remaining = 0 ∧ t.dest = u32 (s.dest + s.remaining) ∧
      (width = 1 → ∃ l, t.bus.stores = l ++ s.bus.stores ∧ sumBytes l = s.remaining) := by
  intro fuel
  induction fuel with
  | zero =>
    intro s t hd h
    by_cases hr : s.remaining = 0
    · simp only [lz77Loop] at h
      rw [if_neg (by omega)] at h
      cases h
      exact ⟨hr, by rw [hr, Nat.add_zero, u32_eq_of_lt hd], fun _ => ⟨[], by simp, by simp [sumBytes, hr]⟩⟩
    · simp only [lz77Loop] at h
      rw [if_pos hr] at h
      cases h
  | succ n ih =>
    intro s t hd h
    by_cases hr : s.remaining = 0
    · simp only [lz77Loop] at h
      rw [if_neg (by omega)] at h
      cases h
      exact ⟨hr, by rw [hr, Nat.add_zero, u32_eq_of_lt hd], fun _ => ⟨[], by simp, by simp [sumBytes, hr]⟩⟩
    · simp only [lz77Loop] at h
      rw [if_pos hr] at h
      obtain ⟨b1, b2, b3, b4⟩ := lz77Body_inv width s hd hr
      obtain ⟨i1, i2, i3⟩ := ih (lz77Body width s) t b3 h
      refine ⟨i1, ?_, ?_⟩
      · rw [i2, b2, u32_add_left]
        congr 1
        clear b4 i3 h
        omega
      · intro hw
        obtain ⟨l2, hl2, hs2⟩ := i3 hw
        obtain ⟨l1, hl1, hs1⟩ := b4 hw
        refine ⟨l2 ++ l1, by rw [hl2, hl1, List.append_assoc], ?_⟩
        rw [sumBytes_append]
        clear b4 i3 h hl1 hl2
        omega

/-- Reduction to 32 bits is idempotent. -/
theorem u32_idem (a : Nat) : u32 (u32 a) = u32 a := by
  simp [u32, U32, Nat.mod_mod]

/-- Facts about a completing _unLz77 call: gprs[1] ends advanced by exactly
the declared length, gprs[3] is cleared, and in width-1 mode the store trace
grows by exactly the declared number of bytes. -/
theorem unLz77_facts (width fuel : Nat) (m m' : Machine) (hd : m.gprs 1 < U32)
    (h : _unLz77 width fuel m = some m') :
    m'.gprs 1 = u32 (m.gprs 1 + ((m.bus.load32 (m.gprs 0) &&& 0xFFFFFF00) >>> 8)) ∧
    m'.gprs 3 = 0 ∧
    (width = 1 → ∃ l, m'.bus.stores = l ++ m.bus.stores ∧
      sumBytes l = (m.bus.load32 (m.gprs 0) &&& 0xFFFFFF00) >>> 8) := by
  unfold _unLz77 at h
  dsimp only at h
  cases hm : lz77Loop width fuel
      { source := u32 (m.gprs 0 + 4), dest := m.gprs 1,
        remaining := (m.bus.load32 (m.gprs 0) &&& 0xFFFFFF00) >>> 8,
        blockheader := 0, blocksRemaining := 0, halfword := 0, bus := m.bus } with
  | none => rw [hm] at h; cases h
  | some t =>
    rw [hm] at h
    obtain ⟨i1, i2, i3⟩ := lz77Loop_inv width fuel _ t hd hm
    cases h
    refine ⟨?_, ?_, ?_⟩
    · simp only [Machine.setGpr]
      norm_num
      rw [i2, u32_idem]
    · simp only [Machine.setGpr]
      norm_num [u32, U32]
    · intro hw
      obtain ⟨l, hl, hs⟩ := i3 hw
      exact ⟨l, hl, hs⟩

/-- Invariant of the compressed RLE run (analogue of `lz77Copy_inv`). -/
theorem rlCompressedCopy_inv (width : Nat) :
    ∀ count block s, s.dest < U32 →
      (rlCompressedCopy width count block s).remaining ≤ s.remaining ∧
      (rlCompressedCopy width count block s).dest =
        u32 (s.dest + (s.remaining - (rlCompressedCopy width count block s).remaining)) ∧
      (rlCompressedCopy width count block s).dest < U32 ∧
      (rlCompressedCopy width count block s).source = s.source ∧
      (width = 1 → ∃ l, (rlCompressedCopy width count block s).bus.stores = l ++ s.bus.stores ∧
        sumBytes l = s.remaining - (rlCompressedCopy width count block s).remaining) := by
  intro count
  induction count with
  | zero =>
    intro block s hd
    have he : rlCompressedCopy width 0 block s = s := rfl
    rw [he]
    exact ⟨Nat.le_refl _, by rw [Nat.sub_self, Nat.add_zero, u32_eq_of_lt hd], hd, rfl,
      fun _ => ⟨[], by simp, by simp [sumBytes]⟩⟩
  | succ n ih =>
    intro block s hd
    by_cases hr : s.remaining = 0
    · have he : rlCompressedCopy width (n + 1) block s = s := by
        simp only [rlCompressedCopy]
        rw [if_pos hr]
      rw [he]
      exact ⟨Nat.le_refl _, by rw [Nat.sub_self, Nat.add_zero, u32_eq_of_lt hd], hd, rfl,
        fun _ => ⟨[], by simp, by simp [sumBytes]⟩⟩
    · set s1 : RlState :=
        { s with remaining := s.remaining - 1,
                 halfword := (putByte width s.dest block s.halfword s.bus).1,
                 bus := (putByte width s.dest block s.halfword s.bus).2,
                 dest := u32 (s.dest + 1) } with hs1
      have e1 : s1.remaining = s.remaining - 1 := by rw [hs1]
      have e2 : s1.dest = u32 (s.dest + 1) := by rw [hs1]
      have e4 : s1.source = s.source := by rw [hs1]
      have e3 : s1.bus = (putByte width s.dest block s.halfword s.bus).2 := by rw [hs1]
      have hexp : rlCompressedCopy width (n + 1) block s = rlCompressedCopy width n block s1 := by
        simp only [rlCompressedCopy]
        rw [if_neg hr]
      clear_value s1
      obtain ⟨h1, h2, h3, h4, h5⟩ := ih block s1 (by rw [e2]; exact u32_lt _)
      rw [hexp]
      rw [e1] at h1
      rw [e1, e2] at h2
      rw [e4] at h4
      refine ⟨Nat.le_trans h1 (Nat.sub_le _ _), ?_, h3, h4, ?_⟩
      · rw [h2, u32_add_left]
        congr 1
        clear h5 e3 hexp hs1
        omega
      · intro hw
        subst hw
        obtain ⟨l, hl, hsum⟩ := h5 rfl
        rw [e1] at hsum
        refine ⟨l ++ [(u32 s.dest, 1, block % 256)], ?_, ?_⟩
        · rw [hl, e3]
          rw [show (putByte 1 s.dest block s.halfword s.bus).2 =
            s.bus.store8 s.dest block from rfl]
          simp [Bus.store8]
        · rw [sumBytes_append]
          simp only [sumBytes, Nat.add_zero]
          clear h5 e3 hexp hs1 hl
          omega

/-- Invariant of the uncompressed RLE run. -/
theorem rlUncompressedCopy_inv (width : Nat) :
    ∀ count s, s.dest < U32 →
      (rlUncompressedCopy width count s).remaining ≤ s.remaining ∧
      (rlUncompressedCopy width count s).dest =
        u32 (s.dest + (s.remaining - (rlUncompressedCopy width count s).remaining)) ∧
      (rlUncompressedCopy width count s).dest < U32 ∧
      (width = 1 → ∃ l, (rlUncompressedCopy width count s).bus.stores = l ++ s.bus.stores ∧
        sumBytes l = s.remaining - (rlUncompressedCopy width count s).remaining) := by
  intro count
  induction count with
  | zero =>
    intro s hd
    have he : rlUncompressedCopy width 0 s = s := rfl
    rw [he]
    exact ⟨Nat.le_refl _, by rw [Nat.sub_self, Nat.add_zero, u32_eq_of_lt hd], hd,
      fun _ => ⟨[], by simp, by simp [sumBytes]⟩⟩
  | succ n ih =>
    intro s hd
    by_cases hr : s.remaining = 0
    · have he : rlUncompressedCopy width (n + 1) s = s := by
        simp only [rlUncompressedCopy]
        rw [if_pos hr]
      rw [he]
      exact ⟨Nat.le_refl _, by rw [Nat.sub_self, Nat.add_zero, u32_eq_of_lt hd], hd,
        fun _ => ⟨[], by simp, by simp [sumBytes]⟩⟩
    · set s1 : RlState :=
        { s with remaining := s.remaining - 1, source := u32 (s.source + 1),
                 halfword := (putByte width s.dest (s.bus.loadU8 s.source) s.halfword s.bus).1,
                 bus := (putByte width s.dest (s.bus.loadU8 s.source) s.halfword s.bus).2,
                 dest := u32 (s.dest + 1) } with hs1
      have e1 : s1.remaining = s.remaining - 1 := by rw [hs1]
      have e2 : s1.dest = u32 (s.dest + 1) := by rw [hs1]
      have e3 : s1.bus = (putByte width s.dest (s.bus.loadU8 s.source) s.halfword s.bus).2 := by
        rw [hs1]
      have hexp : rlUncompressedCopy width (n + 1) s = rlUncompressedCopy width n s1 := by
        simp only [rlUncompressedCopy]
        rw [if_neg hr]
      clear_value s1
      obtain ⟨h1, h2, h3, h5⟩ := ih s1 (by rw [e2]; exact u32_lt _)
      rw [hexp]
      rw [e1] at h1
      rw [e1, e2] at h2
      refine ⟨Nat.le_trans h1 (Nat.sub_le _ _), ?_, h3, ?_⟩
      · rw [h2, u32_add_left]
        congr 1
        clear h5 e3 hexp hs1
        omega
      · intro hw
        subst hw
        obtain ⟨l, hl, hsum⟩ := h5 rfl
        rw [e1] at hsum
        refine ⟨l ++ [(u32 s.dest, 1, s.bus.loadU8 s.source % 256)], ?_, ?_⟩
        · rw [hl, e3]
          rw [show (putByte 1 s.dest (s.bus.loadU8 s.source) s.halfword s.bus).2 =
            s.bus.store8 s.dest (s.bus.loadU8 s.source) from rfl]
          simp [Bus.store8]
        · rw [sumBytes_append]
          simp only [sumBytes, Nat.add_zero]
          clear h5 e3 hexp hs1 hl
          omega

/-- Invariant of one outer RLE iteration (under the loop guard). -/
theorem rlBody_inv (width : Nat) (s : RlState) (hd : s.dest < U32) :
    (rlBody width s).remaining ≤ s.remaining ∧
    (rlBody width s).dest = u32 (s.dest + (s.remaining - (rlBody width s).remaining)) ∧
    (rlBody width s).dest < U32 ∧
    (width = 1 → ∃ l, (rlBody width s).bus.stores = l ++ s.bus.stores ∧
      sumBytes l = s.remaining - (rlBody width s).remaining) := by
  unfold rlBody
  dsimp only
  split
  · obtain ⟨h1, h2, h3, h4, h5⟩ :=
      rlCompressedCopy_inv width ((s.bus.loadU8 s.source &&& 127) + 3)
        (s.bus.loadU8 (u32 (s.source + 1)))
        { s with source := u32 (u32 (s.source + 1) + 1) } hd
    exact ⟨h1, h2, h3, h5⟩
  · obtain ⟨h1, h2, h3, h5⟩ :=
      rlUncompressedCopy_inv width (s.bus.loadU8 s.source + 1)
        { s with source := u32 (s.source + 1) } hd
    exact ⟨h1, h2, h3, h5⟩

/-- Invariant of the full RLE loop (analogue of `lz77Loop_inv`). -/
theorem rlLoop_inv (width : Nat) :
    ∀ fuel s t, s.dest < U32 → rlLoop width fuel s = some t →
      t.remaining = 0 ∧ t.dest = u32 (s.dest + s.remaining) ∧ t.dest < U32 ∧
      (width = 1 → ∃ l, t.bus.stores = l ++ s.bus.stores ∧ sumBytes l = s.remaining) := by
  intro fuel
  induction fuel with
  | zero =>
    intro s t hd h
    by_cases hr : s.remaining = 0
    · simp only [rlLoop] at h
      rw [if_neg (by omega)] at h
      cases h
      refine ⟨hr, by rw [hr, Nat.add_zero, u32_eq_of_lt hd], hd,
        fun _ => ⟨[], by simp, by simp [sumBytes, hr]⟩⟩
    · simp only [rlLoop] at h
      rw [if_pos hr] at h
      cases h
  | succ n ih =>
    intro s t hd h
    by_cases hr : s.remaining = 0
    · simp only [rlLoop] at h
      rw [if_neg (by omega)] at h
      cases h
      refine ⟨hr, by rw [hr, Nat.add_zero, u32_eq_of_lt hd], hd,
        fun _ => ⟨[], by simp, by simp [sumBytes, hr]⟩⟩
    · simp only [rlLoop] at h
      rw [if_pos hr] at h
      obtain ⟨b1, b2, b3, b4⟩ := rlBody_inv width s hd
      obtain ⟨i1, i2, i3, i4⟩ := ih (rlBody width s) t b3 h
      refine ⟨i1, ?_, i3, ?_⟩
      · rw [i2, b2, u32_add_left]
        congr 1
        clear b4 i4 h
        omega
      · intro hw
        obtain ⟨l2, hl2, hs2⟩ := i4 hw
        obtain ⟨l1, hl1, hs1⟩ := b4 hw
        refine ⟨l2 ++ l1, by rw [hl2, hl1, List.append_assoc], ?_⟩
        rw [sumBytes_append]
        clear b4 i4 h hl1 hl2
        omega

/-- Facts about the width-1 RLE padding loop: it stores exactly `padding`
zero bytes and advances the cursor past them. -/
theorem rlPad8_facts :
    ∀ padding dest bus, dest < U32 →
      (rlPad8 padding dest bus).1 = u32 (dest + padding) ∧
      ∃ l, (rlPad8 padding dest bus).2.stores = l ++ bus.stores ∧ sumBytes l = padding ∧
        ∀ e ∈ l, e.2.1 = 1 ∧ e.2.2 = 0 := by
  intro padding
  induction padding with
  | zero =>
    intro dest bus hd
    rw [show rlPad8 0 dest bus = (dest, bus) from by rw [rlPad8]; norm_num]
    exact ⟨by rw [Nat.add_zero, u32_eq_of_lt hd], ⟨[], by simp, by simp [sumBytes], by simp⟩⟩
  | succ n ih =>
    intro dest bus hd
    rw [show rlPad8 (n + 1) dest bus = rlPad8 n (u32 (dest + 1)) (bus.store8 dest 0) from by
      rw [rlPad8]; norm_num]
    obtain ⟨h1, l, hl, hs, hz⟩ := ih (u32 (dest + 1)) (bus.store8 dest 0) (u32_lt _)
    refine ⟨?_, l ++ [(u32 dest, 1, 0)], ?_, ?_, ?_⟩
    · rw [h1, u32_add_left]
      congr 1
      omega
    · rw [hl]
      simp [Bus.store8]
    · rw [sumBytes_append]
      simp only [sumBytes, Nat.add_zero]
      omega
    · intro e he
      rcases List.mem_append.mp he with h | h
      · exact hz e h
      · rcases List.mem_singleton.mp h with rfl
        exact ⟨rfl, rfl⟩

/-- Facts about a completing width-1 _unRl call: the final gprs[1] sits past
the declared bytes plus the padding, and the store trace grows by exactly
`declared` data bytes plus `padding` single zero bytes. -/
theorem unRl_facts (fuel : Nat) (m m' : Machine) (hd : m.gprs 1 < U32)
    (h : _unRl 1 fuel m = some m') :
    m'.gprs 1 = u32 (m.gprs 1 + ((m.bus.load32 (m.gprs 0 &&& 0xFFFFFFFC) &&& 0xFFFFFF00) >>> 8) +
      (4 - ((m.bus.load32 (m.gprs 0 &&& 0xFFFFFFFC) &&& 0xFFFFFF00) >>> 8) % 4) % 4) ∧
    ∃ lp lm, m'.bus.stores = lp ++ lm ++ m.bus.stores ∧
      sumBytes lm = (m.bus.load32 (m.gprs 0 &&& 0xFFFFFFFC) &&& 0xFFFFFF00) >>> 8 ∧
      sumBytes lp = (4 - ((m.bus.load32 (m.gprs 0 &&& 0xFFFFFFFC) &&& 0xFFFFFF00) >>> 8) % 4) % 4 ∧
      (∀ e ∈ lp, e.2.1 = 1 ∧ e.2.2 = 0) := by
  unfold _unRl at h
  dsimp only at h
  cases hm : rlLoop 1 fuel
      { source := u32 ((m.gprs 0 &&& 0xFFFFFFFC) + 4), dest := m.gprs 1,
        remaining := (m.bus.load32 (m.gprs 0 &&& 0xFFFFFFFC) &&& 0xFFFFFF00) >>> 8,
        halfword := 0, bus := m.bus } with
  | none => rw [hm] at h; cases h
  | some t =>
    rw [hm] at h
    norm_num at h
    obtain ⟨i1, i2, i3, i4⟩ := rlLoop_inv 1 fuel _ t hd hm
    obtain ⟨l, hl, hs⟩ := i4 rfl
    obtain ⟨p1, lp, hlp, hps, hpz⟩ :=
      rlPad8_facts ((4 - ((m.bus.load32 (m.gprs 0 &&& 0xFFFFFFFC) &&& 0xFFFFFF00) >>> 8) % 4) % 4)
        t.dest t.bus i3
    cases h
    refine ⟨?_, lp, l, ?_, hs, hps, hpz⟩
    · simp only [Machine.setGpr]
      norm_num
      rw [p1, i2, u32_add_left, u32_idem]
    · show ((rlPad8 ((4 - ((m.bus.load32 (m.gprs 0 &&& 0xFFFFFFFC) &&& 0xFFFFFF00) >>> 8) % 4) % 4)
        t.dest t.bus).2).stores = _
      rw [hlp, hl]
      simp [List.append_assoc]

/-- The 1-to-1 UnFilter iteration in closed form. -/
theorem unFilterStep_11 (s : UfState) :
    unFilterStep 1 1 s =
      { s with bus := s.bus.store8 s.dest ((s.bus.loadU8 s.source + s.old) % 65536),
               dest := u32 (s.dest + 1), remaining := s.remaining - 1,
               old := (s.bus.loadU8 s.source + s.old) % 65536,
               source := u32 (s.source + 1) } := rfl

/-- Invariant of the 1-to-1 UnFilter loop: a completing run drains `remaining`
exactly, advances both cursors by that many bytes, and stores one byte per
iteration. -/
theorem ufLoop11_inv :
    ∀ fuel s t, s.dest < U32 → s.source < U32 → 0 ≤ s.remaining →
      unFilterLoop 1 1 fuel s = some t →
      t.remaining = 0 ∧ t.dest = u32 (s.dest + s.remaining.toNat) ∧
      t.source = u32 (s.source + s.remaining.toNat) ∧
      ∃ l, t.bus.stores = l ++ s.bus.stores ∧ sumBytes l = s.remaining.toNat := by
  intro fuel
  induction fuel with
  | zero =>
    intro s t hd hs hr h
    simp only [unFilterLoop] at h
    by_cases h0 : 0 < s.remaining
    · rw [if_pos h0] at h
      cases h
    · rw [if_neg h0] at h
      cases h
      have : s.remaining = 0 := by omega
      rw [this]
      exact ⟨rfl, by rw [Int.toNat_zero, Nat.add_zero, u32_eq_of_lt hd],
        by rw [Int.toNat_zero, Nat.add_zero, u32_eq_of_lt hs], ⟨[], by simp, by simp [sumBytes]⟩⟩
  | succ n ih =>
    intro s t hd hs hr h
    simp only [unFilterLoop] at h
    by_cases h0 : 0 < s.remaining
    · rw [if_pos h0] at h
      rw [unFilterStep_11 s] at h
      obtain ⟨i1, i2, i3, l, hl, hsum⟩ := ih _ t (by exact u32_lt _) (by exact u32_lt _)
        (by dsimp only; omega) h
      dsimp only at i2 i3 hl hsum
      refine ⟨i1, ?_, ?_, ?_⟩
      · rw [i2, u32_add_left]
        congr 1
        omega
      · rw [i3, u32_add_left]
        congr 1
        omega
      · refine ⟨l ++ [(u32 s.dest, 1, (s.bus.loadU8 s.source + s.old) % 65536 % 256)], ?_, ?_⟩
        · rw [hl]
          simp [Bus.store8]
        · rw [sumBytes_append]
          simp only [sumBytes, Nat.add_zero]
          omega
    · rw [if_neg h0] at h
      cases h
      have : s.remaining = 0 := by omega
      rw [this]
      exact ⟨rfl, by rw [Int.toNat_zero, Nat.add_zero, u32_eq_of_lt hd],
        by rw [Int.toNat_zero, Nat.add_zero, u32_eq_of_lt hs], ⟨[], by simp, by simp [sumBytes]⟩⟩

/-- Facts about a completing 1-to-1 _unFilter call: both final cursors sit
exactly past the declared bytes and exactly that many bytes were stored. -/
theorem unFilter11_facts (fuel : Nat) (m m' : Machine) (hd : m.gprs 1 < U32)
    (h : _unFilter 1 1 fuel m = some m') :
    m'.gprs 0 = u32 ((m.gprs 0 &&& 0xFFFFFFFC) + 4 +
      (m.bus.load32 (m.gprs 0 &&& 0xFFFFFFFC) >>> 8)) ∧
    m'.gprs 1 = u32 (m.gprs 1 + (m.bus.load32 (m.gprs 0 &&& 0xFFFFFFFC) >>> 8)) ∧
    ∃ l, m'.bus.stores = l ++ m.bus.stores ∧
      sumBytes l = m.bus.load32 (m.gprs 0 &&& 0xFFFFFFFC) >>> 8 := by
  unfold _unFilter at h
  dsimp only at h
  cases hm : unFilterLoop 1 1 fuel
      { source := u32 ((m.gprs 0 &&& 0xFFFFFFFC) + 4), dest := m.gprs 1,
        remaining := ((m.bus.load32 (m.gprs 0 &&& 0xFFFFFFFC) >>> 8 : Nat) : Int),
        halfword := 0, old := 0, bus := m.bus } with
  | none => rw [hm] at h; cases h
  | some t =>
    rw [hm] at h
    obtain ⟨i1, i2, i3, l, hl, hsum⟩ := ufLoop11_inv fuel _ t hd (u32_lt _) (by positivity) hm
    dsimp only at i2 i3 hl hsum
    rw [Int.toNat_natCast] at i2 i3 hsum
    cases h
    refine ⟨?_, ?_, ⟨l, hl, hsum⟩⟩
    · simp only [Machine.setGpr]
      norm_num
      rw [i3, u32_add_left, u32_idem]
    · simp only [Machine.setGpr]
      norm_num
      rw [i2, u32_idem]

/-- Invariant of the Huffman leaf emit: `remaining` stays a multiple of 4 and
never grows, the destination advances by exactly the decrease, the trace
grows by that byte count, and the source cursor is untouched. -/
theorem huffEmit_inv (bits treeBase readBits : Nat) (s : HuffState)
    (hd : s.dest < U32) (h4 : 4 ∣ s.remaining) (hr : s.remaining ≠ 0) :
    (huffEmit bits treeBase readBits s).remaining ≤ s.remaining ∧
    4 ∣ (huffEmit bits treeBase readBits s).remaining ∧
    (huffEmit bits treeBase readBits s).dest =
      u32 (s.dest + (s.remaining - (huffEmit bits treeBase readBits s).remaining)) ∧
    (huffEmit bits treeBase readBits s).dest < U32 ∧
    (huffEmit bits treeBase readBits s).source = s.source ∧
    ∃ l, (huffEmit bits treeBase readBits s).bus.stores = l ++ s.bus.stores ∧
      sumBytes l = s.remaining - (huffEmit bits treeBase readBits s).remaining := by
  have hge : 4 ≤ s.remaining := Nat.le_of_dvd (Nat.pos_of_ne_zero hr) h4
  unfold huffEmit
  dsimp only
  split
  · dsimp only
    refine ⟨Nat.sub_le _ _, ?_, ?_, u32_lt _, rfl, ?_⟩
    · exact (Nat.dvd_sub' h4 (Nat.dvd_refl 4))
    · congr 1
      omega
    · refine ⟨[(u32 s.dest,
        4, (s.block ||| (readBits &&& (1 <<< bits - 1)) <<< s.bitsSeen) % U32)], ?_, ?_⟩
      · simp [Bus.store32]
      · simp only [sumBytes]
        omega
  · refine ⟨Nat.le_refl _, h4, ?_, hd, rfl, ⟨[], by simp, by simp [sumBytes]⟩⟩
    rw [Nat.sub_self, Nat.add_zero, u32_eq_of_lt hd]

/-- Invariant of the Huffman inner bit loop (analogue of `lz77Copy_inv`). -/
theorem huffInner_inv (bits treeBase : Nat) :
    ∀ br bitstream s, s.dest < U32 → 4 ∣ s.remaining →
      (huffInner bits treeBase br bitstream s).remaining ≤ s.remaining ∧
      4 ∣ (huffInner bits treeBase br bitstream s).remaining ∧
      (huffInner bits treeBase br bitstream s).dest =
        u32 (s.dest + (s.remaining - (huffInner bits treeBase br bitstream s).remaining)) ∧
      (huffInner bits treeBase br bitstream s).dest < U32 ∧
      (huffInner bits treeBase br bitstream s).source = s.source ∧
      ∃ l, (huffInner bits treeBase br bitstream s).bus.stores = l ++ s.bus.stores ∧
        sumBytes l = s.remaining - (huffInner bits treeBase br bitstream s).remaining := by
  intro br
  induction br with
  | zero =>
    intro bitstream s hd h4
    have he : huffInner bits treeBase 0 bitstream s = s := rfl
    rw [he]
    exact ⟨Nat.le_refl _, h4, by rw [Nat.sub_self, Nat.add_zero, u32_eq_of_lt hd], hd, rfl,
      ⟨[], by simp, by simp [sumBytes]⟩⟩
  | succ n ih =>
    intro bitstream s hd h4
    by_cases hr : s.remaining = 0
    · have he : huffInner bits treeBase (n + 1) bitstream s = s := by
        simp only [huffInner]
        rw [if_pos hr]
      rw [he]
      exact ⟨Nat.le_refl _, h4, by rw [Nat.sub_self, Nat.add_zero, u32_eq_of_lt hd], hd, rfl,
        ⟨[], by simp, by simp [sumBytes]⟩⟩
    · have hcomp : ∀ s1 : HuffState, s1.remaining ≤ s.remaining → 4 ∣ s1.remaining →
          s1.dest = u32 (s.dest + (s.remaining - s1.remaining)) → s1.dest < U32 →
          s1.source = s.source →
          (∃ l1, s1.bus.stores = l1 ++ s.bus.stores ∧
            sumBytes l1 = s.remaining - s1.remaining) →
          (huffInner bits treeBase n (u32 (bitstream <<< 1)) s1).remaining ≤ s.remaining ∧
          4 ∣ (huffInner bits treeBase n (u32 (bitstream <<< 1)) s1).remaining ∧
          (huffInner bits treeBase n (u32 (bitstream <<< 1)) s1).dest =
            u32 (s.dest + (s.remaining -
              (huffInner bits treeBase n (u32 (bitstream <<< 1)) s1).remaining)) ∧
          (huffInner bits treeBase n (u32 (bitstream <<< 1)) s1).dest < U32 ∧
          (huffInner bits treeBase n (u32 (bitstream <<< 1)) s1).source = s.source ∧
          ∃ l, (huffInner bits treeBase n (u32 (bitstream <<< 1)) s1).bus.stores =
            l ++ s.bus.stores ∧
            sumBytes l = s.remaining -
              (huffInner bits treeBase n (u32 (bitstream <<< 1)) s1).remaining := by
        intro s1 j1 j2 j3 j4 j5 j6
        obtain ⟨i1, i2, i3, i4, i5, l2, hl2, hs2⟩ := ih (u32 (bitstream <<< 1)) s1 j4 j2
        obtain ⟨l1, hl1, hs1⟩ := j6
        refine ⟨Nat.le_trans i1 j1, i2, ?_, i4, by rw [i5, j5], ?_⟩
        · rw [i3, j3, u32_add_left]
          congr 1
          omega
        · refine ⟨l2 ++ l1, by rw [hl2, hl1, List.append_assoc], ?_⟩
          rw [sumBytes_append]
          omega
      have hexp : ∀ s2 : HuffState, huffInner bits treeBase (n + 1) bitstream s =
          (if bitstream &&& 0x80000000 ≠ 0 then
            if HuffmanNodeIsRTerm s.node then
              huffInner bits treeBase n (u32 (bitstream <<< 1))
                (huffEmit bits treeBase
                  (s.bus.loadU8 (u32 (u32 ((s.nPointer &&& 0xFFFFFFFE) +
                    HuffmanNodeGetOffset s.node * 2 + 2) + 1))) s)
            else
              huffInner bits treeBase n (u32 (bitstream <<< 1))
                { s with
                  nPointer := u32 (u32 ((s.nPointer &&& 0xFFFFFFFE) +
                      HuffmanNodeGetOffset s.node * 2 + 2) + 1),
                  node := s.bus.loadU8 (u32 (u32 ((s.nPointer &&& 0xFFFFFFFE) +
                      HuffmanNodeGetOffset s.node * 2 + 2) + 1)) }
          else
            if HuffmanNodeIsLTerm s.node then
              huffInner bits treeBase n (u32 (bitstream <<< 1))
                (huffEmit bits treeBase
                  (s.bus.loadU8 (u32 ((s.nPointer &&& 0xFFFFFFFE) +
                    HuffmanNodeGetOffset s.node * 2 + 2))) s)
            else
              huffInner bits treeBase n (u32 (bitstream <<< 1))
                { s with
                  nPointer := u32 ((s.nPointer &&& 0xFFFFFFFE) +
                      HuffmanNodeGetOffset s.node * 2 + 2),
                  node := s.bus.loadU8 (u32 ((s.nPointer &&& 0xFFFFFFFE) +
                      HuffmanNodeGetOffset s.node * 2 + 2)) }) := by
        intro _
        simp only [huffInner]
        rw [if_neg hr]
      rw [hexp s]
      by_cases hb : bitstream &&& 0x80000000 ≠ 0
      · rw [if_pos hb]
        by_cases ht : HuffmanNodeIsRTerm s.node
        · rw [if_pos ht]
          obtain ⟨e1, e2, e3, e4, e5, le, hle, hse⟩ :=
            huffEmit_inv bits treeBase _ s hd h4 hr
          exact hcomp _ e1 e2 e3 e4 e5 ⟨le, hle, hse⟩
        · rw [if_neg ht]
          exact hcomp _ (Nat.le_refl _) h4
            (by show s.dest = u32 (s.dest + (s.remaining - s.remaining))
                rw [Nat.sub_self, Nat.add_zero, u32_eq_of_lt hd]) hd rfl
            ⟨[], by simp, by simp [sumBytes]⟩
      · rw [if_neg hb]
        by_cases ht : HuffmanNodeIsLTerm s.node
        · rw [if_pos ht]
          obtain ⟨e1, e2, e3, e4, e5, le, hle, hse⟩ :=
            huffEmit_inv bits treeBase _ s hd h4 hr
          exact hcomp _ e1 e2 e3 e4 e5 ⟨le, hle, hse⟩
        · rw [if_neg ht]
          exact hcomp _ (Nat.le_refl _) h4
            (by show s.dest = u32 (s.dest + (s.remaining - s.remaining))
                rw [Nat.sub_self, Nat.add_zero, u32_eq_of_lt hd]) hd rfl
            ⟨[], by simp, by simp [sumBytes]⟩

/-- Invariant of the Huffman outer loop: a completing run drains `remaining`
to zero, advances the destination by exactly the initial `remaining`, and
stores exactly that many bytes. -/
theorem huffLoop_inv (bits treeBase : Nat) :
    ∀ fuel s t, s.dest < U32 → 4 ∣ s.remaining →
      huffLoop bits treeBase fuel s = some t →
      t.remaining = 0 ∧ t.dest = u32 (s.dest + s.remaining) ∧ t.dest < U32 ∧
      ∃ l, t.bus.stores = l ++ s.bus.stores ∧ sumBytes l = s.remaining := by
  intro fuel
  induction fuel with
  | zero =>
    intro s t hd h4 h
    simp only [huffLoop] at h
    by_cases hr : s.remaining = 0
    · rw [if_neg (by omega)] at h
      cases h
      exact ⟨hr, by rw [hr, Nat.add_zero, u32_eq_of_lt hd], hd,
        ⟨[], by simp, by simp [sumBytes, hr]⟩⟩
    · rw [if_pos hr] at h
      cases h
  | succ n ih =>
    intro s t hd h4 h
    simp only [huffLoop] at h
    by_cases hr : s.remaining = 0
    · rw [if_neg (by omega)] at h
      cases h
      exact ⟨hr, by rw [hr, Nat.add_zero, u32_eq_of_lt hd], hd,
        ⟨[], by simp, by simp [sumBytes, hr]⟩⟩
    · rw [if_pos hr] at h
      obtain ⟨b1, b2, b3, b4, b5, l1, hl1, hs1⟩ :=
        huffInner_inv bits treeBase 32 (s.bus.load32 s.source)
          { s with source := u32 (s.source + 4) } hd h4
      obtain ⟨i1, i2, i3, l2, hl2, hs2⟩ := ih _ t b4 b2 h
      dsimp only at b1 b2 b3 b5 hl1 hs1
      refine ⟨i1, ?_, i3, ?_⟩
      · rw [i2, b3, u32_add_left]
        congr 1
        omega
      · refine ⟨l2 ++ l1, by rw [hl2, hl1, List.append_assoc], ?_⟩
        rw [sumBytes_append]
        omega

/-- Clearing the low two bits of a 32-bit value rounds it down to a multiple
of 4. -/
theorem and_0xFFFFFFFC (x : Nat) (hx : x < U32) : x &&& 0xFFFFFFFC = x / 4 * 4 := by
  have h := and_mask_shift x 30 2
  rw [show ((2 ^ 30 - 1) <<< 2 : Nat) = 0xFFFFFFFC from rfl] at h
  rw [h]
  have hlt : x / 2 ^ 2 < 2 ^ 30 := by
    simp only [U32] at hx
    omega
  rw [Nat.mod_eq_of_lt hlt]
  norm_num

/-- Facts about a completing aligned _unHuffman call: the final gprs[1] sits
past the word-aligned part of the declared length, and the trace grows by
that many bytes plus a final 4-byte flush word exactly when the declared
length is not a multiple of 4. -/
theorem unHuffman_facts (fuel : Nat) (m m' : Machine) (hd : m.gprs 1 < U32)
    (halign : 32 % (m.bus.load32 (m.gprs 0 &&& 0xFFFFFFFC) &&& 0xF) = 0)
    (h : _unHuffman fuel m = some m') :
    m'.gprs 1 = u32 (m.gprs 1 + ((m.bus.load32 (m.gprs 0 &&& 0xFFFFFFFC) >>> 8) -
      (m.bus.load32 (m.gprs 0 &&& 0xFFFFFFFC) >>> 8) % 4)) ∧
    ∃ l, m'.bus.stores = l ++ m.bus.stores ∧
      sumBytes l = ((m.bus.load32 (m.gprs 0 &&& 0xFFFFFFFC) >>> 8) -
        (m.bus.load32 (m.gprs 0 &&& 0xFFFFFFFC) >>> 8) % 4) +
        (if (m.bus.load32 (m.gprs 0 &&& 0xFFFFFFFC) >>> 8) % 4 ≠ 0 then 4 else 0) := by
  have hlt := load32_lt m.bus (m.gprs 0 &&& 0xFFFFFFFC)
  have hdecl : m.bus.load32 (m.gprs 0 &&& 0xFFFFFFFC) >>> 8 < U32 := by
    rw [Nat.shiftRight_eq_div_pow]
    simp only [U32] at hlt ⊢
    omega
  have hmask : (m.bus.load32 (m.gprs 0 &&& 0xFFFFFFFC) >>> 8) &&& 0xFFFFFFFC =
      (m.bus.load32 (m.gprs 0 &&& 0xFFFFFFFC) >>> 8) -
        (m.bus.load32 (m.gprs 0 &&& 0xFFFFFFFC) >>> 8) % 4 := by
    rw [and_0xFFFFFFFC _ hdecl]
    omega
  unfold _unHuffman at h
  rw [if_neg (by omega)] at h
  dsimp only at h
  cases hm : huffLoop (m.bus.load32 (m.gprs 0 &&& 0xFFFFFFFC) &&& 0xF)
      (u32 ((m.gprs 0 &&& 0xFFFFFFFC) + 5)) fuel
      { source := u32 ((m.gprs 0 &&& 0xFFFFFFFC) + 5 +
          ((m.bus.loadU8 (u32 ((m.gprs 0 &&& 0xFFFFFFFC) + 4)) <<< 1) + 1)),
        dest := m.gprs 1,
        remaining := (m.bus.load32 (m.gprs 0 &&& 0xFFFFFFFC) >>> 8) &&& 0xFFFFFFFC,
        block := 0, bitsSeen := 0, nPointer := u32 ((m.gprs 0 &&& 0xFFFFFFFC) + 5),
        node := m.bus.loadU8 (u32 ((m.gprs 0 &&& 0xFFFFFFFC) + 5)), bus := m.bus } with
  | none => rw [hm] at h; cases h
  | some t =>
    rw [hm] at h
    dsimp only at h
    obtain ⟨i1, i2, i3, l, hl, hs⟩ := huffLoop_inv _ _ fuel _ t hd
      (by dsimp only; rw [hmask]; omega) hm
    dsimp only at i2 hl hs
    rw [hmask] at i2 hs
    by_cases hp : (4 - (m.bus.load32 (m.gprs 0 &&& 0xFFFFFFFC) >>> 8) % 4) % 4 ≠ 0
    · rw [if_pos hp] at h
      cases h
      refine ⟨?_, ?_⟩
      · simp only [Machine.setGpr]
        norm_num
        rw [i2, u32_idem]
      · refine ⟨(u32 t.dest, 4, t.block % U32) :: l, ?_, ?_⟩
        · simp only [Bus.store32]
          rw [hl]
          rfl
        · simp only [sumBytes]
          rw [if_pos (by omega), hs]
          omega
    · rw [if_neg hp] at h
      cases h
      refine ⟨?_, ?_⟩
      · simp only [Machine.setGpr]
        norm_num
        rw [i2, u32_idem]
      · refine ⟨l, hl, ?_⟩
        rw [if_neg (by omega), hs]
        omega

/-- A loadU8 result is a byte. -/
theorem loadU8_lt (b : Bus) (a : Nat) : b.loadU8 a < 256 := Nat.mod_lt _ (by norm_num)

/-- In width-1 mode the LZ77 inner copy loop is exactly the reference
overlapping byte-by-byte copy of the spec (each read sees every earlier
write of the same chunk), provided the chunk fits in `remaining`. -/
theorem lz77Copy_refCopy :
    ∀ bytes disp s, s.dest < U32 → bytes ≤ s.remaining →
      lz77Copy 1 bytes disp s =
        { s with remaining := s.remaining - bytes, dest := u32 (s.dest + bytes),
                 bus := lzRefCopy s.bus disp s.dest bytes } := by
  intro bytes
  induction bytes with
  | zero =>
    intro disp s hd _
    rw [show lz77Copy 1 0 disp s = s from rfl]
    rw [show lzRefCopy s.bus disp s.dest 0 = s.bus from rfl]
    rw [Nat.sub_zero, Nat.add_zero, u32_eq_of_lt hd]
  | succ n ih =>
    intro disp s hd hlen
    have hr : s.remaining ≠ 0 := by omega
    have hexp : lz77Copy 1 (n + 1) disp s =
        lz77Copy 1 n (u32 (disp + 1))
          { s with remaining := s.remaining - 1,
                   halfword := s.halfword,
                   bus := s.bus.store8 s.dest (s.bus.loadU8 disp),
                   dest := u32 (s.dest + 1) } := by
      simp only [lz77Copy]
      rw [if_neg hr]
      rfl
    rw [hexp, ih (u32 (disp + 1)) _ (u32_lt _) (by dsimp only; omega)]
    have hbus : lzRefCopy (s.bus.store8 s.dest (s.bus.loadU8 disp)) (u32 (disp + 1))
        (u32 (s.dest + 1)) n = lzRefCopy s.bus disp s.dest (n + 1) := rfl
    dsimp only
    rw [hbus, u32_add_left]
    have h1 : s.remaining - 1 - n = s.remaining - (n + 1) := by omega
    have h2 : s.dest + 1 + n = s.dest + (n + 1) := by omega
    rw [h1, h2]

/-- Field extraction identities for the packed LZ77 back-reference: the code
computes the displacement and length from the 16-bit `block`; they equal the
spec's formulas over the two source bytes b0, b1. -/
theorem lz77_block_fields (b0 b1 : Nat) (h0 : b0 < 256) (h1 : b1 < 256) :
    (((b0 ||| (b1 <<< 8)) &&& 0x000F) <<< 8) ||| (((b0 ||| (b1 <<< 8)) &&& 0xFF00) >>> 8) =
      ((b0 &&& 0x0F) <<< 8) ||| b1 ∧
    ((b0 ||| (b1 <<< 8)) &&& 0x00F0) >>> 4 = b0 >>> 4 := by
  have hor : b0 ||| (b1 <<< 8) = 2 ^ 8 * b1 + b0 := or_low b0 b1 8 h0
  have e1 : (b0 ||| (b1 <<< 8)) &&& 0x000F = (2 ^ 8 * b1 + b0) % 2 ^ 4 := by
    rw [hor, show (0x000F : Nat) = 2 ^ 4 - 1 from rfl, Nat.and_pow_two_sub_one_eq_mod]
  have e2 : (b0 ||| (b1 <<< 8)) &&& 0xFF00 = (2 ^ 8 * b1 + b0) / 2 ^ 8 % 2 ^ 8 * 2 ^ 8 := by
    rw [hor, show (0xFF00 : Nat) = (2 ^ 8 - 1) <<< 8 from rfl, and_mask_shift]
  have e3 : (b0 ||| (b1 <<< 8)) &&& 0x00F0 = (2 ^ 8 * b1 + b0) / 2 ^ 4 % 2 ^ 4 * 2 ^ 4 := by
    rw [hor, show (0x00F0 : Nat) = (2 ^ 4 - 1) <<< 4 from rfl, and_mask_shift]
  have e4 : b0 &&& 0x0F = b0 % 2 ^ 4 := by
    rw [show (0x0F : Nat) = 2 ^ 4 - 1 from rfl, Nat.and_pow_two_sub_one_eq_mod]
  constructor
  · rw [e1, e2, e4, Nat.shiftRight_eq_div_pow]
    have hb : (2 ^ 8 * b1 + b0) / 2 ^ 8 % 2 ^ 8 * 2 ^ 8 / 2 ^ 8 = b1 := by omega
    have hmod : (2 ^ 8 * b1 + b0) % 2 ^ 4 = b0 % 2 ^ 4 := by omega
    rw [hb, hmod]
  · rw [e3, Nat.shiftRight_eq_div_pow, Nat.shiftRight_eq_div_pow]
    omega

/-- Claim C3 (amended): in width-1 LZ77 decoding, a compressed chunk whose
two source bytes are b0 then b1 uses displacement ((b0 & 0x0F) << 8) | b1,
copy length (b0 >> 4) + 3, read cursor dest - displacement - 1, and copies
byte by byte so an overlapping back-reference reads bytes the same chunk has
already produced (the reference overlapping-copy semantics). (In width-2 mode
a byte buffered for halfword coalescing is not yet visible to the
back-reference, so the original claim fails there: see the counterexample.)
Stated for chunks that fit in `remaining`, as the decode stops at the
declared length. -/
theorem claim_C3_lz77_backreference (s : Lz77State) (hd : s.dest < U32)
    (hb : s.blocksRemaining ≠ 0) (hc : s.blockheader &&& 0x80 ≠ 0)
    (hlen : (s.bus.loadU8 s.source >>> 4) + 3 ≤ s.remaining) :
    lz77Body 1 s =
      { s with
        source := u32 (s.source + 2),
        bus := lzRefCopy s.bus
          (sub32 (sub32 s.dest (((s.bus.loadU8 s.source &&& 0x0F) <<< 8) |||
            s.bus.loadU8 (u32 (s.source + 1)))) 1)
          s.dest ((s.bus.loadU8 s.source >>> 4) + 3),
        dest := u32 (s.dest + ((s.bus.loadU8 s.source >>> 4) + 3)),
        remaining := s.remaining - ((s.bus.loadU8 s.source >>> 4) + 3),
        blockheader := s.blockheader <<< 1,
        blocksRemaining := s.blocksRemaining - 1 } := by
  obtain ⟨f1, f2⟩ := lz77_block_fields (s.bus.loadU8 s.source)
    (s.bus.loadU8 (u32 (s.source + 1))) (loadU8_lt _ _) (loadU8_lt _ _)
  unfold lz77Body
  rw [if_pos hb, if_pos hc]
  dsimp only
  rw [f1, f2]
  rw [lz77Copy_refCopy _ _ { s with source := u32 (s.source + 2) } hd (by dsimp only; omega)]

/-- Masking off the low byte then shifting is the plain shift (32-bit value):
the LZ77/RLE `remaining` equals the header's upper 24 bits. -/
theorem and_0xFFFFFF00_shift (x : Nat) (hx : x < U32) : (x &&& 0xFFFFFF00) >>> 8 = x >>> 8 := by
  have h := and_mask_shift x 24 8
  rw [show ((2 ^ 24 - 1) <<< 8 : Nat) = 0xFFFFFF00 from rfl] at h
  rw [h, Nat.shiftRight_eq_div_pow, Nat.shiftRight_eq_div_pow]
  simp only [U32] at hx
  omega

/-- Claim C1 (amended): for every completing decode call in a byte-oriented
mode, the total number of bytes stored equals the length declared in the
header's upper 24 bits: exactly for LZ77 width 1 and UnFilter 1-to-1; RLE
width 1 additionally appends up to three single-byte zero padding stores to
round the destination to a 4-byte boundary; Huffman rounds the total up to a
multiple of 4 by flushing the final partial block word. (The original claim's
exact accounting fails in the halfword-store modes, which write in 2-byte
units: see the counterexample.) -/
theorem claim_C1_byte_totals :
    (∀ fuel m m', m.gprs 1 < U32 → _unLz77 1 fuel m = some m' →
      ∃ l, m'.bus.stores = l ++ m.bus.stores ∧
        sumBytes l = m.bus.load32 (m.gprs 0) >>> 8) ∧
    (∀ fuel m m', m.gprs 1 < U32 →
      32 % (m.bus.load32 (m.gprs 0 &&& 0xFFFFFFFC) &&& 0xF) = 0 →
      _unHuffman fuel m = some m' →
      ∃ l, m'.bus.stores = l ++ m.bus.stores ∧
        sumBytes l = m.bus.load32 (m.gprs 0 &&& 0xFFFFFFFC) >>> 8 +
          (4 - (m.bus.load32 (m.gprs 0 &&& 0xFFFFFFFC) >>> 8) % 4) % 4) ∧
    (∀ fuel m m', m.gprs 1 < U32 → _unRl 1 fuel m = some m' →
      ∃ lp lm, m'.bus.stores = lp ++ lm ++ m.bus.stores ∧
        sumBytes lm = m.bus.load32 (m.gprs 0 &&& 0xFFFFFFFC) >>> 8 ∧
        sumBytes lp = (4 - (m.bus.load32 (m.gprs 0 &&& 0xFFFFFFFC) >>> 8) % 4) % 4 ∧
        sumBytes lp ≤ 3 ∧ (∀ e ∈ lp, e.2.1 = 1 ∧ e.2.2 = 0)) ∧
    (∀ fuel m m', m.gprs 1 < U32 → _unFilter 1 1 fuel m = some m' →
      ∃ l, m'.bus.stores = l ++ m.bus.stores ∧
        sumBytes l = m.bus.load32 (m.gprs 0 &&& 0xFFFFFFFC) >>> 8) := by
  refine ⟨?_, ?_, ?_, ?_⟩
  · intro fuel m m' hd h
    obtain ⟨_, _, h3⟩ := unLz77_facts 1 fuel m m' hd h
    obtain ⟨l, hl, hs⟩ := h3 rfl
    exact ⟨l, hl, by rw [hs, and_0xFFFFFF00_shift _ (load32_lt _ _)]⟩
  · intro fuel m m' hd halign h
    obtain ⟨_, l, hl, hs⟩ := unHuffman_facts fuel m m' hd halign h
    refine ⟨l, hl, ?_⟩
    rw [hs]
    by_cases hc : (m.bus.load32 (m.gprs 0 &&& 0xFFFFFFFC) >>> 8) % 4 = 0
    · rw [if_neg (by omega)]
      omega
    · rw [if_pos (by omega)]
      omega
  · intro fuel m m' hd h
    obtain ⟨_, lp, lm, hl, hsm, hsp, hz⟩ := unRl_facts fuel m m' hd h
    refine ⟨lp, lm, hl, ?_, ?_, by omega, hz⟩
    · rw [hsm, and_0xFFFFFF00_shift _ (load32_lt _ _)]
    · rw [hsp, and_0xFFFFFF00_shift _ (load32_lt _ _)]
  · intro fuel m m' hd h
    obtain ⟨_, _, l, hl, hs⟩ := unFilter11_facts fuel m m' hd h
    exact ⟨l, hl, hs⟩

/-- Claim C7 (amended): on completion, gprs[1] holds the destination cursor:
advanced by exactly the declared length for LZ77 (both widths; LZ77 also
clears gprs[3]), by declared length plus padding for width-1 RLE, and by the
declared length for UnFilter 1-to-1, whose gprs[0] is likewise the aligned
source advanced past the header and all consumed input; for Huffman, gprs[1]
is advanced by the word-aligned part of the declared length only - the final
flush word is stored at the returned gprs[1] without advancing it, so the
original claim's "past all produced output" fails there (see the
counterexample). -/
theorem claim_C7_final_registers :
    (∀ width fuel m m', m.gprs 1 < U32 → _unLz77 width fuel m = some m' →
      m'.gprs 1 = u32 (m.gprs 1 + m.bus.load32 (m.gprs 0) >>> 8) ∧ m'.gprs 3 = 0) ∧
    (∀ fuel m m', m.gprs 1 < U32 →
      32 % (m.bus.load32 (m.gprs 0 &&& 0xFFFFFFFC) &&& 0xF) = 0 →
      _unHuffman fuel m = some m' →
      m'.gprs 1 = u32 (m.gprs 1 + (m.bus.load32 (m.gprs 0 &&& 0xFFFFFFFC) >>> 8 -
        (m.bus.load32 (m.gprs 0 &&& 0xFFFFFFFC) >>> 8) % 4))) ∧
    (∀ fuel m m', m.gprs 1 < U32 → _unRl 1 fuel m = some m' →
      m'.gprs 1 = u32 (m.gprs 1 + m.bus.load32 (m.gprs 0 &&& 0xFFFFFFFC) >>> 8 +
        (4 - (m.bus.load32 (m.gprs 0 &&& 0xFFFFFFFC) >>> 8) % 4) % 4)) ∧
    (∀ fuel m m', m.gprs 1 < U32 → _unFilter 1 1 fuel m = some m' →
      m'.gprs 0 = u32 ((m.gprs 0 &&& 0xFFFFFFFC) + 4 +
        m.bus.load32 (m.gprs 0 &&& 0xFFFFFFFC) >>> 8) ∧
      m'.gprs 1 = u32 (m.gprs 1 + m.bus.load32 (m.gprs 0 &&& 0xFFFFFFFC) >>> 8)) := by
  refine ⟨?_, ?_, ?_, ?_⟩
  · intro width fuel m m' hd h
    unfold _unLz77 at h
    dsimp only at h
    cases hm : lz77Loop width fuel
        { source := u32 (m.gprs 0 + 4), dest := m.gprs 1,
          remaining := (m.bus.load32 (m.gprs 0) &&& 0xFFFFFF00) >>> 8,
          blockheader := 0, blocksRemaining := 0, halfword := 0, bus := m.bus } with
    | none => rw [hm] at h; cases h
    | some t =>
      rw [hm] at h
      obtain ⟨i1, i2, i3⟩ := lz77Loop_inv width fuel _ t hd hm
      cases h
      constructor
      · simp only [Machine.setGpr]
        norm_num
        rw [i2, u32_idem, and_0xFFFFFF00_shift _ (load32_lt _ _)]
      · simp only [Machine.setGpr]
        norm_num [u32, U32]
  · intro fuel m m' hd halign h
    obtain ⟨h1, _⟩ := unHuffman_facts fuel m m' hd halign h
    exact h1
  · intro fuel m m' hd h
    obtain ⟨h1, _⟩ := unRl_facts fuel m m' hd h
    rw [h1, and_0xFFFFFF00_shift _ (load32_lt _ _)]
  · intro fuel m m' hd h
    obtain ⟨h1, h2, _⟩ := unFilter11_facts fuel m m' hd h
    exact ⟨h1, h2⟩

/-- Counterexample to claim C1 as stated: an UnFilter 2-to-2 call whose header declares 1 byte performs a single 2-byte store. -/
theorem claim_C1_counterexample :
    cexC1M.bus.load32 (cexC1M.gprs 0 &&& 0xFFFFFFFC) >>> 8 = 1 ∧
    (match _unFilter 2 2 4 cexC1M with
      | some m' => sumBytes m'.bus.stores
      | none => 999) = 2 ∧
    (2 : Nat) ≠ 1 := by decide

/-- Counterexample to claim C2 as stated: a 1-to-2 UnFilter iteration at an even source offset leaves `remaining`, the destination and the store trace untouched. -/
theorem claim_C2_counterexample :
    (unFilterStep 1 2 cexC2S).remaining = 4 ∧
    (unFilterStep 1 2 cexC2S).dest = 0x02000000 ∧
    (unFilterStep 1 2 cexC2S).bus.stores = [] ∧
    cexC2S.remaining - 2 ≠ 4 ∧ u32 (cexC2S.dest + 2) ≠ 0x02000000 := by decide

/-- Witness for claim C2: the loop-stop conjunct applied at a drained state. -/
theorem claim_C2_witness : unFilterLoop 1 1 5 wC2Stop = some wC2Stop :=
  (claim_C2_unfilter_iteration wC2Stop).2.2.2 1 1 5 (by decide)

/-- Counterexample to claim C3 as stated: in width-2 mode an overlapping back-reference (displacement 0, length 3) reads the stale byte 7 where the reference overlapping copy produces 65. -/
theorem claim_C3_counterexample :
    sub32 (sub32 0x02000000 (((cexC3M.bus.loadU8 0x02000105 &&& 0x0F) <<< 8) |||
      cexC3M.bus.loadU8 0x02000106)) 1 = 0x01FFFFFF ∧
    (cexC3M.bus.loadU8 0x02000105 >>> 4) + 3 = 3 ∧
    (match _unLz77 2 4 cexC3M with
      | some m' => m'.bus.mem 0x02000001
      | none => 999) = 7 ∧
    (lzRefCopy cexC3M.bus 0x01FFFFFF 0x02000000 3).mem 0x02000001 = 65 ∧
    (7 : Nat) ≠ 65 := by decide

/-- Witness for claim C3: a concrete width-1 chunk (b0 = 0x13, b1 = 0x03) evaluated through the theorem. -/
theorem claim_C3_witness :
    (lz77Body 1 wChunkState).remaining = 4 ∧
    (lz77Body 1 wChunkState).dest = 0x02000004 ∧
    (lz77Body 1 wChunkState).source = 0x02000107 ∧
    (lz77Body 1 wChunkState).bus.mem 0x02000000 = 42 := by
  rw [claim_C3_lz77_backreference wChunkState (by decide) (by decide) (by decide) (by decide)]
  refine ⟨by decide, by decide, by decide, by decide⟩

/-- Witness for claim C4: a header with symbol width 3 aborts unchanged. -/
theorem claim_C4_witness :
    _unHuffman 3 wC4M = some { wC4M with msgs := msgUnalignedHuffman :: wC4M.msgs } :=
  claim_C4_huffman_misalign 3 wC4M (by decide)

/-- Witness for claim C5: Div(100, 7) gives r0 = 14, r1 = 2, r3 = 14. -/
theorem claim_C5_witness :
    toS32 ((_Div mC5 100 7).gprs 0) = 14 ∧
    toS32 ((_Div mC5 100 7).gprs 0) * 7 + toS32 ((_Div mC5 100 7).gprs 1) = 100 ∧
    0 ≤ toS32 ((_Div mC5 100 7).gprs 1) ∧
    toS32 ((_Div mC5 100 7).gprs 3) = 14 := by
  obtain ⟨a, b, c, d, e⟩ := claim_C5_div_nonzero mC5 100 7 (by norm_num) (by norm_num) (by norm_num)
    (by norm_num) (by norm_num) (by norm_num)
  refine ⟨?_, b, c (by norm_num), ?_⟩
  · rw [a]
    decide
  · rw [e]
    decide

/-- Witness for claim C6: Div(5, 0) gives r0 = 1, r1 = 5, r3 = 1. -/
theorem claim_C6_witness :
    toS32 ((_Div mC6 5 0).gprs 0) = 1 ∧
    toS32 ((_Div mC6 5 0).gprs 1) = 5 ∧
    toS32 ((_Div mC6 5 0).gprs 3) = 1 := by
  obtain ⟨a, b, c⟩ := claim_C6_div_zero mC6 5 (by norm_num) (by norm_num)
  refine ⟨?_, b, c⟩
  rw [a]
  norm_num

/-- Counterexample to claim C7 as stated: a Huffman call with declared length 1 stores a 4-byte flush word at the returned gprs[1], which is not advanced past it. -/
theorem claim_C7_counterexample :
    (match _unHuffman 4 cexC7M with
      | some m' => (m'.gprs 1, m'.bus.stores)
      | none => (0, [])) = (0x02000000, [(0x02000000, 4, 0)]) := by decide

/-- Witness for claim C7: a completing UnFilter 1-to-1 run ends with gprs[0] and gprs[1] advanced past input and output. -/
theorem claim_C7_witness :
    (match _unFilter 1 1 10 wC7M with
      | some m' => (m'.gprs 0, m'.gprs 1)
      | none => (0, 0)) = (0x02000108, 0x02000004) := by
  have hsome : (_unFilter 1 1 10 wC7M).isSome = true := rfl
  obtain ⟨m', hm'⟩ := Option.isSome_iff_exists.mp hsome
  obtain ⟨h0, h1⟩ := claim_C7_final_registers.2.2.2 10 wC7M m' (by decide) hm'
  rw [hm']
  dsimp only
  rw [h0, h1]
  decide

/-- Witness for claim C8: the fall-through equality at a concrete machine. -/
theorem claim_C8_witness :
    GBASwi16 foC8 envC8 0 0xD mC8 =
      GBASwi16 foC8 envC8 0 0xE (mC8.setGpr 0 (GBAChecksum envC8.bios envC8.biosSize)) :=
  claim_C8_checksum_fallthrough foC8 envC8 0 mC8 rfl

/-- Witness for claim C9: a concrete full-BIOS dispatch raises once and leaves the machine otherwise unchanged. -/
theorem claim_C9_witness :
    GBASwi16 foC9 envC9 2 0x16 mC9 =
      some { mC9 with msgs := msgSwiEntry :: mC9.msgs, raises := mC9.raises + 1 } :=
  claim_C9_fullbios_passthrough foC9 envC9 2 0x16 mC9 rfl

/-- Witness for claim C10: an RLE stream of declared length 5 completes within 10 outer iterations. -/
theorem claim_C10_witness : (_unRl 1 10 wRlTermM).isSome :=
  claim_C10_rle_termination.2 1 10 wRlTermM (by decide)

/-- Witness for claim C1: the four byte-total conjuncts evaluated on concrete completing runs (8, 4, 10 + 2 and 4 bytes). -/
theorem claim_C1_witness :
    (match _unLz77 1 20 wLzBytesM with
      | some m' => sumBytes m'.bus.stores
      | none => 999) = 8 ∧
    (match _unHuffman 10 wHufBytesM with
      | some m' => sumBytes m'.bus.stores
      | none => 999) = 4 ∧
    (match _unRl 1 12 wRlBytesM with
      | some m' => sumBytes m'.bus.stores
      | none => 999) = 12 ∧
    (match _unFilter 1 1 10 wUfBytesM with
      | some m' => sumBytes m'.bus.stores
      | none => 999) = 4 := by
  refine ⟨?_, ?_, ?_, ?_⟩
  · have hsome : (_unLz77 1 20 wLzBytesM).isSome = true := rfl
    obtain ⟨m', hm'⟩ := Option.isSome_iff_exists.mp hsome
    obtain ⟨l, hl, hs⟩ := claim_C1_byte_totals.1 20 wLzBytesM m' (by decide) hm'
    rw [hm']
    dsimp only
    rw [hl, sumBytes_append, hs]
    decide
  · have hsome : (_unHuffman 10 wHufBytesM).isSome = true := rfl
    obtain ⟨m', hm'⟩ := Option.isSome_iff_exists.mp hsome
    obtain ⟨l, hl, hs⟩ := claim_C1_byte_totals.2.1 10 wHufBytesM m' (by decide) (by decide) hm'
    rw [hm']
    dsimp only
    rw [hl, sumBytes_append, hs]
    decide
  · have hsome : (_unRl 1 12 wRlBytesM).isSome = true := rfl
    obtain ⟨m', hm'⟩ := Option.isSome_iff_exists.mp hsome
    obtain ⟨lp, lm, hl, hsm, hsp, _, _⟩ := claim_C1_byte_totals.2.2.1 12 wRlBytesM m' (by decide) hm'
    rw [hm']
    dsimp only
    rw [hl, sumBytes_append, sumBytes_append, hsm, hsp]
    decide
  · have hsome : (_unFilter 1 1 10 wUfBytesM).isSome = true := rfl
    obtain ⟨m', hm'⟩ := Option.isSome_iff_exists.mp hsome
    obtain ⟨l, hl, hs⟩ := claim_C1_byte_totals.2.2.2 10 wUfBytesM m' (by decide) hm'
    rw [hm']
    dsimp only
    rw [hl, sumBytes_append, hs]
    decide
